import Mathlib

/-!
# Export-trie decoding (`pkg/dyld/trie.go`)

A shallow embedding of the Go functions `ReadUleb128`, `readUleb128`,
`parseTrie` and `walkTrie`, and theorems about them.

Conventions of the embedding (a 64-bit Go platform is assumed, so `int` and
`uint` are 64 bits wide):

* a byte is an element of `Fin 256`; byte slices and Go strings are
  `List Byte`;
* `uint64` values are natural numbers below `2 ^ 64`, and every operation that
  can wrap carries an explicit `% 2 ^ 64`;
* `int` values are integers;
* a `bytes.Reader` is the pair of its slice and its read index.
-/

namespace Dyld

/-- A byte. -/
abbrev Byte := Fin 256

/-- The errors the functions of `trie.go` return, one constructor per message. -/
inductive TrieError where
  /-- `errors.Wrap(io.EOF, "could not parse ULEB128 value")` -/
  | ulebEOF
  /-- "failed to read trie terminalSize" -/
  | readTerminalSize
  /-- "failed to read terminalSize Uleb128" -/
  | readTerminalSizeUleb
  /-- "malformed trie node, terminalSize=... extends past end of trie" -/
  | terminalSizePastEnd
  /-- "failed to read child string" -/
  | readChildString
  /-- "malformed trie node, child node extends past end of trie" -/
  | childPastEnd
  /-- "failed to read nodeOffset Uleb128" -/
  | readNodeOffsetUleb
  /-- "malformed trie child, nodeOffset=... out of range" -/
  | nodeOffsetOutOfRange
  /-- "symbol not in trie" -/
  | symbolNotInTrie
  deriving DecidableEq, Repr

deriving instance DecidableEq for Except

/-! ## Machine arithmetic -/

/-- Go's `x << shift` on a 64-bit unsigned operand: the result is truncated to
64 bits, and a shift count of 64 or more gives 0. -/
def shl64 (x shift : Nat) : Nat :=
  if shift < 64 then (x <<< shift) % 2 ^ 64 else 0

/-- Conversion of a `uint64` to `int` / `int64` (two's complement). -/
def toInt64 (u : Nat) : Int :=
  if u < 2 ^ 63 then (u : Int) else (u : Int) - 2 ^ 64

/-- Conversion of an `int` to `uint64` (two's complement). -/
def toUint64 (z : Int) : Nat :=
  (z % 2 ^ 64).toNat

/-! ## `bytes.Reader` -/

/-- A `bytes.Reader`: the slice `s` and the current reading index `i`. -/
structure Reader where
  s : List Byte
  i : Nat
  deriving DecidableEq, Repr

/-- The bytes at and after the reading index. -/
def Reader.remaining (r : Reader) : List Byte :=
  r.s.drop r.i

/-- `(*bytes.Reader).Seek(offset, io.SeekStart)`: a negative offset is an error
that leaves the index where it was (the callers ignore the error). -/
def Reader.Seek (r : Reader) (offset : Int) : Reader :=
  if offset < 0 then r else { r with i := offset.toNat }

/-- `(*bytes.Reader).ReadByte`: `none` is `io.EOF`. -/
def Reader.ReadByte (r : Reader) : Option Byte × Reader :=
  match r.remaining with
  | [] => (none, r)
  | b :: _ => (some b, { r with i := r.i + 1 })

/-! ## The varint decoders -/

/-- The `for` loop of `ReadUleb128`, run over the bytes left at the cursor.
`n` counts the bytes read so far. Returns the value, the error and the number
of bytes read. -/
def ReadUleb128.loop : List Byte → (result shift n : Nat) → Nat × Option TrieError × Nat
  | [], _, _, n => (0, some .ulebEOF, n)
  | b :: rest, result, shift, n =>
    let result := result ||| shl64 (b.val &&& 0x7f) shift
    if b.val &&& 0x80 = 0 then (result, none, n + 1)
    else ReadUleb128.loop rest result ((shift + 7) % 2 ^ 64) (n + 1)

/-- `ReadUleb128(r *bytes.Reader) (uint64, error)`, with the reader it leaves. -/
def ReadUleb128 (r : Reader) : Nat × Option TrieError × Reader :=
  let out := ReadUleb128.loop r.remaining 0 0 0
  (out.1, out.2.1, { r with i := r.i + out.2.2 })

/-- The `for` loop of `readUleb128` over the unread bytes of the buffer. -/
def readUleb128.loop : List Byte → (result shift length : Nat) → Nat × Nat × Option TrieError
  | [], _, _, _ => (0, 0, some .ulebEOF)
  | b :: rest, result, shift, length =>
    let length := length + 1
    let result := result ||| shl64 (b.val &&& 0x7f) shift
    if b.val &&& 0x80 = 0 then (result, length, none)
    else readUleb128.loop rest result ((shift + 7) % 2 ^ 64) length

/-- `readUleb128(buf *bytes.Buffer) (uint64, int, error)` on a buffer whose
unread bytes are `buf`. -/
def readUleb128 (buf : List Byte) : Nat × Nat × Option TrieError :=
  if buf.length = 0 then (0, 0, none) else readUleb128.loop buf 0 0 0

/-! ## Varint encoding (specification side) -/

/-- The canonical ULEB128 encoding of `v`: seven bits per byte, least
significant group first, the high bit set on every byte but the last. -/
def encodeUleb128 (v : Nat) : List Byte :=
  if h : v < 128 then [⟨v, by omega⟩]
  else ⟨v % 128 + 128, by omega⟩ :: encodeUleb128 (v / 128)
termination_by v
decreasing_by omega

/-- The number a varint byte sequence denotes before truncation to 64 bits:
the sum of `(b[i] & 0x7f) * 2 ^ (7 * i)`. -/
def ulebSum : List Byte → Nat
  | [] => 0
  | b :: bs => (b.val &&& 0x7f) + 2 ^ 7 * ulebSum bs

/-! ## Export flags and trie entries -/

/-- The four methods of `CacheExportFlag` that `parseTrie` calls. The type and
its methods are declared outside `trie.go`, so the decoder is embedded over an
arbitrary choice of them; the argument is the decoded flags varint. -/
structure ExportFlagOps where
  ReExport : Nat → Bool
  StubAndResolver : Nat → Bool
  Regular : Nat → Bool
  ThreadLocal : Nat → Bool

/-- Modelled from the spec: the declaration of `CacheExportFlag` is not in
`trie.go`. The spec names the capabilities `Regular`, `ThreadLocal`,
`ReExport` and `StubAndResolver` of the flags of a Mach-O export trie; this
instance places them as that format does: the kind in the two low bits
(0 regular, 1 thread-local), `0x08` re-export, `0x10` stub-and-resolver. It is
used for concrete tries only; the general theorems hold for every
`ExportFlagOps`. -/
def machOFlags : ExportFlagOps where
  ReExport := fun f => f &&& 0x08 != 0
  StubAndResolver := fun f => f &&& 0x10 != 0
  Regular := fun f => f &&& 0x03 == 0
  ThreadLocal := fun f => f &&& 0x03 == 1

/-- `type trieEntry struct`. `Flags` holds the decoded flags varint. -/
structure trieEntry where
  Name : List Byte
  Flags : Nat
  Other : Nat
  Address : Nat
  FoundInDylib : List Byte
  deriving DecidableEq, Repr

/-- `type trieNode struct`. -/
structure trieNode where
  Offset : Nat
  SymBytes : List Byte
  deriving DecidableEq, Repr

/-! ## `parseTrie` -/

/-- The inline loop
`for { s, err := r.ReadByte(); if err == io.EOF { break }; if s == 0 { break }; buf = append(buf, s) }`
run over the bytes left at the cursor, starting from buffer `buf`. Returns the
buffer and the number of bytes read. -/
def readCString : List Byte → (buf : List Byte) → (n : Nat) → List Byte × Nat
  | [], buf, n => (buf, n)
  | s :: rest, buf, n =>
    if s = 0 then (buf, n + 1) else readCString rest (buf ++ [s]) (n + 1)

/-- The body of `if terminalSize != 0 { ... }` in `parseTrie`: decodes the
terminal payload at the cursor and builds the entry of `tNode`. -/
def parseTrie.terminal (F : ExportFlagOps) (loadAddress : Nat) (tNode : trieNode)
    (r : Reader) : Except TrieError (trieEntry × Reader) :=
  match ReadUleb128 r with
  | (_, some err, _) => .error err
  | (symFlagInt, none, r) =>
    let flags := symFlagInt
    let reExport : Except TrieError (Nat × List Byte × Reader) :=
      if F.ReExport flags then
        match ReadUleb128 r with
        | (_, some err, _) => .error err
        | (symOtherInt, none, r) =>
          let out := readCString r.remaining [] 0
          .ok (symOtherInt, out.1, { r with i := r.i + out.2 })
      else .ok (0, [], r)
    match reExport with
    | .error err => .error err
    | .ok (symOtherInt, reExportSymBytes, r) =>
      match ReadUleb128 r with
      | (_, some err, _) => .error err
      | (symValueInt, none, r) =>
        let stub : Except TrieError (Nat × Reader) :=
          if F.StubAndResolver flags then
            match ReadUleb128 r with
            | (_, some err, _) => .error err
            | (symOtherInt, none, r) => .ok (symOtherInt, r)
          else .ok (symOtherInt, r)
        match stub with
        | .error err => .error err
        | .ok (symOtherInt, r) =>
          let symValueInt :=
            if F.Regular flags || F.ThreadLocal flags then (symValueInt + loadAddress) % 2 ^ 64
            else symValueInt
          let symName :=
            if reExportSymBytes.length > 0 then
              tNode.SymBytes ++ [0x20, 0x28] ++ reExportSymBytes ++ [0x29]
            else tNode.SymBytes
          .ok ({ Name := symName, Flags := flags, Other := symOtherInt,
                 Address := symValueInt, FoundInDylib := [] }, r)

/-- How a call of `parseTrie` ends when it does not return entries: with a
returned error, or with a run-time panic. -/
inductive ParseFailure where
  | returned (err : TrieError)
  | panic
  deriving DecidableEq, Repr

/-- The loop `for i := 0; i < int(childrenRemaining); i++ { ... }` of
`parseTrie`, with the number of iterations left as first argument. The work
list is kept with its top (the last element of the Go slice) at the head.
`make([]byte, len(tNode.SymBytes), 32000)` panics at run time when the length
exceeds the capacity. -/
def parseTrie.children (tNode : trieNode) :
    Nat → Reader → List trieNode → Except ParseFailure (List trieNode × Reader)
  | 0, r, nodes => .ok (nodes, r)
  | i + 1, r, nodes =>
    if 32000 < tNode.SymBytes.length then .error .panic
    else
      let out := readCString r.remaining tNode.SymBytes 0
      let r := { r with i := r.i + out.2 }
      match ReadUleb128 r with
      | (_, some err, _) => .error (.returned err)
      | (childNodeOffset, none, r) =>
        parseTrie.children tNode i r ({ Offset := childNodeOffset, SymBytes := out.1 } :: nodes)

/-- The loop `for len(nodes) > 0 { ... }` of `parseTrie`. `fuel` bounds the
number of iterations; `none` means the bound was reached. The work list is
kept with its top at the head. -/
def parseTrie.loop (F : ExportFlagOps) (loadAddress : Nat) :
    Nat → List trieNode → List trieEntry → Reader →
      Option (Except ParseFailure (List trieEntry))
  | _, [], entries, _ => some (.ok entries)
  | 0, _ :: _, _, _ => none
  | fuel + 1, tNode :: nodes, entries, r =>
    let r := r.Seek (toInt64 tNode.Offset)
    match ReadUleb128 r with
    | (_, some err, _) => some (.error (.returned err))
    | (terminalSize, none, r) =>
      let terminal : Except TrieError (List trieEntry × Reader) :=
        if terminalSize ≠ 0 then
          match parseTrie.terminal F loadAddress tNode r with
          | .error err => .error err
          | .ok (e, r) => .ok (entries ++ [e], r)
        else .ok (entries, r)
      match terminal with
      | .error err => some (.error (.returned err))
      | .ok (entries, r) =>
        let r := r.Seek (toInt64 ((tNode.Offset + terminalSize + 1) % 2 ^ 64))
        match r.ReadByte with
        | (none, _) => some (.ok entries)
        | (some childrenRemaining, r) =>
          match parseTrie.children tNode childrenRemaining.val r nodes with
          | .error fail => some (.error fail)
          | .ok (nodes, r) => parseTrie.loop F loadAddress fuel nodes entries r

/-- `parseTrie(trieData []byte, loadAddress uint64) ([]trieEntry, error)`, run
for at most `fuel` iterations of its outer loop: `none` when the bound was
reached, `some (.ok entries)` for `return entries, nil`,
`some (.error (.returned err))` for `return nil, err`, and
`some (.error .panic)` for a run-time panic. -/
def parseTrie (F : ExportFlagOps) (trieData : List Byte) (loadAddress : Nat) (fuel : Nat) :
    Option (Except ParseFailure (List trieEntry)) :=
  parseTrie.loop F loadAddress fuel [{ Offset := 0, SymBytes := [] }] [] ⟨trieData, 0⟩

/-! ## `walkTrie` -/

/-- What a call of `walkTrie` ends with: a returned pair, or a run-time panic
(an index or slice bound out of range). -/
inductive WalkResult where
  | ret (offset : Int) (err : Option TrieError)
  | panic
  deriving DecidableEq, Repr

/-- `binary.LittleEndian.Uint64`. -/
def leUint64 (b : List Byte) : Nat :=
  b.foldr (fun x acc => x.val + 256 * acc) 0

/-- `buff.ReadAt(b, off)` for an 8-byte `b`: `none` when it returns an error
(negative offset, or fewer than 8 bytes from `off`). -/
def readAt8 (data : List Byte) (off : Int) : Option (List Byte) :=
  if off < 0 then none
  else if ((data.drop off.toNat).take 8).length < 8 then none
  else some ((data.drop off.toNat).take 8)

/-- The slice expression `data[offset:]`: `none` when it panics. -/
def sliceFrom (data : List Byte) (offset : Int) : Option (List Byte) :=
  if offset < 0 ∨ (data.length : Int) < offset then none
  else some (data.drop offset.toNat)

/-- The loop `for c != 0 { ... }` that scans one edge string, run over the
bytes from `data[offset]` on. Returns the offset of the terminator,
`searchStrIndex` (a `uint8`) and `wrongEdge`; `none` is an index-out-of-range
panic (`data[offset]` or `symbol[searchStrIndex]`). -/
def walkTrie.scanEdge (symbol : List Byte) :
    List Byte → Int → Nat → Bool → Option (Int × Nat × Bool)
  | [], _, _, _ => none
  | c :: rest, offset, searchStrIndex, wrongEdge =>
    if c = 0 then some (offset, searchStrIndex, wrongEdge)
    else if !wrongEdge then
      match symbol[searchStrIndex]? with
      | none => none
      | some sc =>
        walkTrie.scanEdge symbol rest (offset + 1) ((searchStrIndex + 1) % 256) (decide (c ≠ sc))
    else walkTrie.scanEdge symbol rest (offset + 1) searchStrIndex wrongEdge

/-- The loop `for (data[offset] & 0x80) != 0 { offset++ }`, run over the bytes
from `data[offset]` on; `none` is an index-out-of-range panic. -/
def walkTrie.skipUleb : List Byte → Int → Option Int
  | [], _ => none
  | b :: rest, offset =>
    if b.val &&& 0x80 ≠ 0 then walkTrie.skipUleb rest (offset + 1) else some offset

/-- How the sibling loop of `walkTrie` ends: with a `return` (or panic), or by
falling out of the loop (`break` or `i == 0`) with the current `offset`,
`nodeOffset` and `strIndex`. -/
inductive SiblingOutcome where
  | done (res : WalkResult)
  | next (offset : Int) (nodeOffset : Nat) (strIndex : Nat)
  deriving DecidableEq, Repr

/-- The loop `for i := childrenRemaining; i > 0; i-- { ... }` of `walkTrie`,
with `i` as first argument. -/
def walkTrie.siblings (data symbol : List Byte) (strIndex : Nat) : Nat → Int → SiblingOutcome
  | 0, offset => .next offset 0 strIndex
  | i + 1, offset =>
    match sliceFrom data offset with
    | none => .done .panic
    | some tail =>
      if (0 : Byte) ∉ tail then .done (.ret (-1) (some .readChildString))
      else
        match walkTrie.scanEdge symbol tail offset strIndex false with
        | none => .done .panic
        | some (offset, searchStrIndex, wrongEdge) =>
          if wrongEdge then
            let offset := offset + 1
            match walkTrie.skipUleb (data.drop offset.toNat) offset with
            | none => .done .panic
            | some offset =>
              let offset := offset + 1
              if offset > data.length then .done (.ret (-1) (some .childPastEnd))
              else walkTrie.siblings data symbol strIndex i offset
          else
            let offset := offset + 1
            match sliceFrom data offset with
            | none => .done .panic
            | some buf =>
              match readUleb128 buf with
              | (_, _, some _) => .done (.ret (-1) (some .readNodeOffsetUleb))
              | (nodeOffset, n, none) =>
                let offset := offset + n
                if nodeOffset = 0 ∨ (data.length : Int) < toInt64 nodeOffset then
                  .done (.ret (-1) (some .nodeOffsetOutOfRange))
                else if strIndex = searchStrIndex then
                  .done (.ret (-1) (some .symbolNotInTrie))
                else .next offset nodeOffset searchStrIndex

/-- The outer `for { ... }` of `walkTrie`, from the state `(offset, strIndex)`.
`fuel` bounds the number of iterations; `none` means the bound was reached. -/
def walkTrie.loop (data symbol : List Byte) : Nat → Int → Nat → Option WalkResult
  | 0, _, _ => none
  | fuel + 1, offset, strIndex =>
    match readAt8 data offset with
    | none => some (.ret (-1) (some .readTerminalSize))
    | some b =>
      let terminalSize := leUint64 b
      let offset := offset + 1
      let size : Except TrieError (Nat × Int) :=
        if terminalSize > 127 then
          let offset := offset - 1
          match readUleb128 (data.drop offset.toNat) with
          | (_, _, some _) => .error .readTerminalSizeUleb
          | (terminalSize, n, none) => .ok (terminalSize, offset + n)
        else .ok (terminalSize, offset)
      match size with
      | .error err => some (.ret (-1) (some err))
      | .ok (terminalSize, offset) =>
        if symbol.length ≤ strIndex ∧ terminalSize ≠ 0 then some (.ret offset none)
        else
          match data[(toUint64 offset + terminalSize) % 2 ^ 64]? with
          | none => some .panic
          | some children =>
            if data.length < children.val then some (.ret (-1) (some .terminalSizePastEnd))
            else
              match data[(toUint64 offset + terminalSize + 1) % 2 ^ 64]? with
              | none => some .panic
              | some childrenRemaining =>
                let offset := toInt64 ((toUint64 offset + terminalSize + 1) % 2 ^ 64)
                match walkTrie.siblings data symbol strIndex childrenRemaining.val offset with
                | .done res => some res
                | .next offset nodeOffset strIndex =>
                  if nodeOffset ≠ 0 then walkTrie.loop data symbol fuel (toInt64 nodeOffset) strIndex
                  else some (.ret offset (some .symbolNotInTrie))

/-- `walkTrie(data []byte, symbol string) (int, error)`, run for at most `fuel`
iterations of its outer loop. -/
def walkTrie (data symbol : List Byte) (fuel : Nat) : Option WalkResult :=
  walkTrie.loop data symbol fuel 0 0

/-! ## Well-formed trie blobs (specification side)

A well-formed blob is the encoding of a finite tree of nodes. The tree is kept
with every varint as the bytes it is written with, so that the encoding of a
node is determined by the tree. -/

/-- The value a varint denotes: its sum truncated to 64 bits. -/
def ulebValue (bs : List Byte) : Nat :=
  ulebSum bs % 2 ^ 64

/-- A terminated varint: a non-empty byte sequence whose last byte, and no
other, has the high bit clear. -/
def isVarint : List Byte → Bool
  | [] => false
  | [b] => decide (b.val < 128)
  | b :: c :: bs => decide (128 ≤ b.val) && isVarint (c :: bs)

/-- A byte string without NUL. -/
def noNul (bs : List Byte) : Bool :=
  bs.all (fun b => decide (b ≠ 0))

/-- The payload of a terminal node, field by field. `ordinal` and `name` are
encoded only when the flags satisfy `ReExport`, `resolver` only when they
satisfy `StubAndResolver`. -/
structure Terminal where
  flags : List Byte
  ordinal : List Byte
  name : List Byte
  value : List Byte
  resolver : List Byte
  deriving DecidableEq, Repr

/-- The children of a node, in encoded order. `cons edge offset terminal kids rest`
is a child reached through the edge string `edge`, whose node lies at the offset
the varint `offset` denotes, carries the payload `terminal` (`none` for a
non-terminal node) and has the children `kids`; `rest` are its later siblings. -/
inductive Forest where
  | nil
  | cons (edge : List Byte) (offset : List Byte) (terminal : Option Terminal)
      (kids : Forest) (rest : Forest)
  deriving Repr

/-- The number of children. -/
def Forest.length : Forest → Nat
  | .nil => 0
  | .cons _ _ _ _ rest => rest.length + 1

/-- The number of nodes in the subtrees of the children. -/
def Forest.size : Forest → Nat
  | .nil => 0
  | .cons _ _ _ kids rest => kids.size + rest.size + 1

/-- The encoded payload of a terminal node: flags; ordinal and NUL-terminated
name if re-export; value; resolver offset if stub-and-resolver. -/
def Terminal.bytes (F : ExportFlagOps) (t : Terminal) : List Byte :=
  t.flags
    ++ (if F.ReExport (ulebValue t.flags) then t.ordinal ++ (t.name ++ [0]) else [])
    ++ (t.value
    ++ (if F.StubAndResolver (ulebValue t.flags) then t.resolver else []))

/-- The fields of a payload are terminated varints and a NUL-free name. -/
def Terminal.wf (F : ExportFlagOps) (t : Terminal) : Bool :=
  isVarint t.flags
    && (if F.ReExport (ulebValue t.flags) then isVarint t.ordinal && noNul t.name else true)
    && isVarint t.value
    && (if F.StubAndResolver (ulebValue t.flags) then isVarint t.resolver else true)

/-- The payload bytes of a node; empty for a non-terminal node. -/
def payloadBytes (F : ExportFlagOps) : Option Terminal → List Byte
  | none => []
  | some t => t.bytes F

/-- The encoded child list: for each child its edge string, a NUL and the
varint of its node offset. -/
def Forest.edgeBytes : Forest → List Byte
  | .nil => []
  | .cons edge offset _ _ rest => edge ++ 0 :: (offset ++ rest.edgeBytes)

/-- The encoding of a node: the terminal size in one byte, the payload, the
child count in one byte, the child list. -/
def nodeBytes (F : ExportFlagOps) (terminal : Option Terminal) (kids : Forest) : List Byte :=
  Fin.ofNat (payloadBytes F terminal).length
    :: (payloadBytes F terminal ++ Fin.ofNat kids.length :: kids.edgeBytes)

/-- The blob holds, at offset `off`, the encoding of a node with payload
`terminal` and children `kids`; the terminal size fits one varint byte and the
child count one byte. -/
def nodeAt (F : ExportFlagOps) (blob : List Byte) (off : Nat) (terminal : Option Terminal)
    (kids : Forest) : Bool :=
  decide ((payloadBytes F terminal).length < 128)
    && decide (kids.length < 256)
    && (match terminal with
        | none => true
        | some t => t.wf F)
    && decide ((blob.drop off).take (nodeBytes F terminal kids).length = nodeBytes F terminal kids)

/-- Every child of the forest, at every depth, has a NUL-free edge string and
a varint offset at which the blob holds the child's node. -/
def Forest.wf (F : ExportFlagOps) (blob : List Byte) : Forest → Bool
  | .nil => true
  | .cons edge offset terminal kids rest =>
    noNul edge && isVarint offset && nodeAt F blob (ulebValue offset) terminal kids
      && kids.wf F blob && rest.wf F blob

/-- No node below a node named `pfx` that has children has a name longer than
32000 bytes, the capacity `parseTrie` gives the buffer it copies the name of a
node into for each of its children. -/
def Forest.namesFit (pfx : List Byte) : Forest → Bool
  | .nil => true
  | .cons edge _ _ kids rest =>
    (decide (kids.length = 0) || decide ((pfx ++ edge).length ≤ 32000))
      && kids.namesFit (pfx ++ edge) && rest.namesFit pfx

/-- The blob is a well-formed trie: it encodes the tree whose root has payload
`terminal` and children `kids`, with the root at offset 0, and it is shorter
than `2 ^ 61` bytes (as every slice on a 64-bit platform is). -/
def WellFormed (F : ExportFlagOps) (blob : List Byte) (terminal : Option Terminal)
    (kids : Forest) : Prop :=
  blob.length < 2 ^ 61 ∧ nodeAt F blob 0 terminal kids = true ∧ kids.wf F blob = true

/-- The terminal nodes below a node named `pfx`, each with its name (the
concatenation of the edge strings from the root), listed depth-first in
pre-order with the children of every node in encoded order. -/
def Forest.terminals (pfx : List Byte) : Forest → List (List Byte × Terminal)
  | .nil => []
  | .cons edge _ terminal kids rest =>
    (match terminal with
      | none => []
      | some t => [(pfx ++ edge, t)])
      ++ kids.terminals (pfx ++ edge) ++ rest.terminals pfx

/-- The terminal nodes below a node named `pfx`, listed depth-first in
pre-order with the children of every node taken last-encoded first. -/
def Forest.terminalsRev (pfx : List Byte) : Forest → List (List Byte × Terminal)
  | .nil => []
  | .cons edge _ terminal kids rest =>
    rest.terminalsRev pfx
      ++ ((match terminal with
            | none => []
            | some t => [(pfx ++ edge, t)])
          ++ kids.terminalsRev (pfx ++ edge))

/-- The terminal payload of the root, named by the empty string. -/
def rootTerminal : Option Terminal → List (List Byte × Terminal)
  | none => []
  | some t => [([], t)]

/-- The string `" ("`. -/
def openParen : List Byte := [0x20, 0x28]
/-- The string `")"`. -/
def closeParen : List Byte := [0x29]

/-- The entry of a terminal node with name `name` and payload `t` under load
address `L`: its name is followed by the parenthesised re-export name when a
non-empty one is present; `Other` is the resolver offset for
stub-and-resolver, else the ordinal for a re-export, else 0; the address is
rebased when the flags are regular or thread-local. -/
def Terminal.entry (F : ExportFlagOps) (L : Nat) (name : List Byte) (t : Terminal) : trieEntry :=
  { Name :=
      if F.ReExport (ulebValue t.flags) = true ∧ t.name ≠ [] then
        name ++ openParen ++ t.name ++ closeParen
      else name
    Flags := ulebValue t.flags
    Other :=
      if F.StubAndResolver (ulebValue t.flags) then ulebValue t.resolver
      else if F.ReExport (ulebValue t.flags) then ulebValue t.ordinal
      else 0
    Address :=
      if F.Regular (ulebValue t.flags) || F.ThreadLocal (ulebValue t.flags) then
        (ulebValue t.value + L) % 2 ^ 64
      else ulebValue t.value
    FoundInDylib := [] }

/-- A pending node of the work list as the tree sees it: the name accumulated
so far, the node offset, and the payload and children of the node. -/
structure PendingNode where
  name : List Byte
  offset : Nat
  terminal : Option Terminal
  kids : Forest

/-- The `trieNode` that `parseTrie` holds for a pending node. -/
def PendingNode.toNode (n : PendingNode) : trieNode :=
  { Offset := n.offset, SymBytes := n.name }

/-- The number of nodes in the subtree of a pending node. -/
def PendingNode.size (n : PendingNode) : Nat :=
  n.kids.size + 1

/-- The blob holds the subtree of the pending node at its offset, and the names
of the nodes of the subtree that have children fit 32000 bytes. -/
def PendingNode.wf (F : ExportFlagOps) (blob : List Byte) (n : PendingNode) : Prop :=
  nodeAt F blob n.offset n.terminal n.kids = true ∧ n.kids.wf F blob = true ∧
    (n.kids.length = 0 ∨ n.name.length ≤ 32000) ∧ n.kids.namesFit n.name = true

/-- The blob holds the subtree of the pending node at its offset. -/
def PendingNode.encoded (F : ExportFlagOps) (blob : List Byte) (n : PendingNode) : Prop :=
  nodeAt F blob n.offset n.terminal n.kids = true ∧ n.kids.wf F blob = true

/-- The terminal nodes in the subtree of a pending node, the node itself first,
then its descendants with children taken last-encoded first. -/
def PendingNode.terminals (n : PendingNode) : List (List Byte × Terminal) :=
  (match n.terminal with
    | none => []
    | some t => [(n.name, t)])
    ++ n.kids.terminalsRev n.name

/-- Pushing the children of a node named `pfx` on the work list, in encoded
order, so that the last-encoded child ends on top. -/
def Forest.push (pfx : List Byte) : Forest → List PendingNode → List PendingNode
  | .nil, stack => stack
  | .cons edge offset terminal kids rest, stack =>
    rest.push pfx
      ({ name := pfx ++ edge, offset := ulebValue offset, terminal := terminal, kids := kids }
        :: stack)

/-- The root as a pending node: offset 0 and the empty name. -/
def rootNode (terminal : Option Terminal) (kids : Forest) : PendingNode :=
  { name := [], offset := 0, terminal := terminal, kids := kids }

/-! ## The three-symbol trie -/

/-- The symbol `_foo`. -/
def sym_foo : List Byte := [0x5f, 0x66, 0x6f, 0x6f]
/-- The symbol `_bar`. -/
def sym_bar : List Byte := [0x5f, 0x62, 0x61, 0x72]
/-- The symbol `_foobar`. -/
def sym_foobar : List Byte := [0x5f, 0x66, 0x6f, 0x6f, 0x62, 0x61, 0x72]
/-- The symbol `_missing`. -/
def sym_missing : List Byte := [0x5f, 0x6d, 0x69, 0x73, 0x73, 0x69, 0x6e, 0x67]

/-- An encoding of the trie `{_foo -> 0x1000, _bar -> 0x2000, _foobar -> 0x3000}`
with flags 0 (regular). The root (offset 0) has the edges `_foo` (to offset 14)
and `_bar` (to offset 24), in that order; the node of `_foo` has the edge `bar`
(to offset 29). -/
def threeSymbolTrie : List Byte :=
  [ 0x00, 0x02, 0x5f, 0x66, 0x6f, 0x6f, 0x00, 0x0e, 0x5f, 0x62, 0x61, 0x72, 0x00, 0x18,
    0x03, 0x00, 0x80, 0x20, 0x01, 0x62, 0x61, 0x72, 0x00, 0x1d,
    0x03, 0x00, 0x80, 0x40, 0x00,
    0x03, 0x00, 0x80, 0x60, 0x00 ]

/-- The payload of a regular symbol with the two-byte value varint `lo hi`. -/
def regularTerminal (lo hi : Byte) : Terminal :=
  { flags := [0x00], ordinal := [], name := [], value := [lo, hi], resolver := [] }

/-- The children of the root of `threeSymbolTrie`: `_foo` (with the child
`bar`), then `_bar`. -/
def threeSymbolKids : Forest :=
  .cons sym_foo [0x0e] (some (regularTerminal 0x80 0x20))
    (.cons [0x62, 0x61, 0x72] [0x1d] (some (regularTerminal 0x80 0x60)) .nil .nil)
    (.cons sym_bar [0x18] (some (regularTerminal 0x80 0x40)) .nil .nil)

/-- The symbol `_a`. -/
def sym_a : List Byte := [0x5f, 0x61]
/-- The symbol `_original`. -/
def sym_original : List Byte := [0x5f, 0x6f, 0x72, 0x69, 0x67, 0x69, 0x6e, 0x61, 0x6c]

/-- A trie with the single symbol `_a`, whose node (offset 6) is terminal with
flags `flags`, ordinal 2, re-export name `_original` and value `0x10`. -/
def reExportTrie (flags : Byte) : List Byte :=
  [ 0x00, 0x01, 0x5f, 0x61, 0x00, 0x06,
    0x0d, flags, 0x02, 0x5f, 0x6f, 0x72, 0x69, 0x67, 0x69, 0x6e, 0x61, 0x6c, 0x00, 0x10, 0x00 ]

/-- The children of the root of `reExportTrie flags`. -/
def reExportKids (flags : Byte) : Forest :=
  .cons sym_a [0x06]
    (some { flags := [flags], ordinal := [0x02], name := sym_original, value := [0x10],
            resolver := [] })
    .nil .nil

/-- The symbol made of 256 letters `a`. -/
def longSym : List Byte := List.replicate 256 0x61

/-- A trie with the single symbol `longSym`, value `0x1000`, flags 0; its
terminal node lies at offset 261 and is followed by three bytes of padding. -/
def longTrie : List Byte :=
  [0x00, 0x01] ++ longSym ++
    [0x00, 0x85, 0x02, 0x03, 0x00, 0x80, 0x20, 0x00, 0x00, 0x00, 0x00]

/-- A trie with the single symbol `_a`, whose node (offset 6) is terminal with
flags `0x10` (stub-and-resolver), value `0x20` and resolver offset `0x30`. -/
def stubTrie : List Byte :=
  [ 0x00, 0x01, 0x5f, 0x61, 0x00, 0x06,
    0x03, 0x10, 0x20, 0x30, 0x00 ]

/-- The children of the root of `stubTrie`. -/
def stubKids : Forest :=
  .cons sym_a [0x06]
    (some { flags := [0x10], ordinal := [], name := [], value := [0x20], resolver := [0x30] })
    .nil .nil

/-! ## Malformed and unusual blobs -/

/-- A root whose single child, reached through the empty edge string, lies at
offset 0: the root is its own child. -/
def cycleTrie : List Byte := [0x00, 0x01, 0x00, 0x00]

/-- A root whose single child, reached through the edge `a`, lies at offset 0:
the root is its own child and every visit makes the name one byte longer. -/
def growTrie : List Byte := [0x00, 0x01, 0x61, 0x00, 0x00]

/-- The edge string of 32001 letters `a`. -/
def bigEdge : List Byte := List.replicate 32001 0x61

/-- The encoded root of `bigTrie`: no payload, one child reached through
`bigEdge`, at offset 32007 (varint `87 fa 01`). -/
def bigHead : List Byte := 0x00 :: 0x01 :: (bigEdge ++ [0x00, 0x87, 0xfa, 0x01])

/-- The nodes of `bigTrie` behind the root: at offset 32007 a non-terminal node
with the child `b` at offset 32014 (varint `8e fa 01`), which is terminal with
flags 0 and value `0x1000`. -/
def bigTail : List Byte :=
  [0x00, 0x01, 0x62, 0x00, 0x8e, 0xfa, 0x01, 0x03, 0x00, 0x80, 0x20, 0x00]

/-- A trie with the single symbol made of 32001 letters `a` and one `b`. -/
def bigTrie : List Byte := bigHead ++ bigTail

/-- The children of the node of `bigTrie` at offset 32007. -/
def bigInner : Forest :=
  .cons [0x62] [0x8e, 0xfa, 0x01] (some (regularTerminal 0x80 0x20)) .nil .nil

/-- The children of the root of `bigTrie`. -/
def bigKids : Forest :=
  .cons bigEdge [0x87, 0xfa, 0x01] none bigInner .nil

/-- A root with the children `a` (offset 8, value `0x10`) and `b` (offset 12,
value `0x20`); the blob ends behind the payload of `b`, before its child count. -/
def eofTrie : List Byte :=
  [ 0x00, 0x02, 0x61, 0x00, 0x08, 0x62, 0x00, 0x0c,
    0x02, 0x00, 0x10, 0x00,
    0x02, 0x00, 0x20 ]

/-- A root whose single child `a` has the offset `2 ^ 63` (a ten-byte varint);
behind the root lie the bytes `03 00 80 20`. -/
def farTrie : List Byte :=
  [ 0x00, 0x01, 0x61, 0x00,
    0x80, 0x80, 0x80, 0x80, 0x80, 0x80, 0x80, 0x80, 0x80, 0x01,
    0x03, 0x00, 0x80, 0x20 ]

/-- A root with the edge `b` (offset 1) and the empty edge with offset 8, the
length of the blob. -/
def edgeTrie : List Byte := [0x00, 0x02, 0x62, 0x00, 0x01, 0x00, 0x08, 0x00]

/-- A root with the edge `a` to the node at offset 5, which has the edge `a` to
itself; three bytes of padding follow. -/
def spinTrie : List Byte :=
  [ 0x00, 0x01, 0x61, 0x00, 0x05,
    0x00, 0x01, 0x61, 0x00, 0x05,
    0x00, 0x00, 0x00 ]

/-- A trie with the single symbol `_a`, whose node (offset 6) is terminal with
flags 0 and value 6; four bytes of padding follow. -/
def ghostTrie : List Byte :=
  [ 0x00, 0x01, 0x5f, 0x61, 0x00, 0x06,
    0x02, 0x00, 0x06, 0x00,
    0x00, 0x00, 0x00, 0x00 ]

/-- The children of the root of `ghostTrie`. -/
def ghostKids : Forest :=
  .cons sym_a [0x06]
    (some { flags := [0x00], ordinal := [], name := [], value := [0x06], resolver := [] })
    .nil .nil

/-- A root that is terminal with terminal size 128 (the two-byte varint `80 01`):
flags `0x08` (re-export), ordinal 1, a re-export name of 124 letters `n` and
value 0. Its child count (1) is at offset 130, the edge `a` at 131, and the
child (offset 135, varint `87 01`) is terminal with flags 0 and value `0x1000`;
three bytes of padding follow. -/
def wideTrie : List Byte :=
  [0x80, 0x01, 0x08, 0x01] ++ List.replicate 124 0x6e ++
    [ 0x00, 0x00,
      0x01, 0x61, 0x00, 0x87, 0x01,
      0x03, 0x00, 0x80, 0x20, 0x00,
      0x00, 0x00, 0x00 ]

/-- Eight bytes that start with terminal size `0x7f`. -/
def shortTrie : List Byte := [0x7f, 0x00, 0x00, 0x00, 0x00, 0x00, 0x00, 0x00]

/-- A root whose child list is cut off behind the terminator of its first edge
string `abcde`. -/
def cutTrie : List Byte := [0x00, 0x01, 0x61, 0x62, 0x63, 0x64, 0x65, 0x00]

/-- Eleven bytes with the high bit set, then the byte 1. -/
def overlongVarint : List Byte := List.replicate 11 0x80 ++ [0x01]

set_option maxRecDepth 100000 in
theorem byte_and_high (b : Byte) : (b.val &&& 0x80 = 0) ↔ b.val < 128 := by
  revert b; decide

theorem byte_and_low_lt (b : Byte) : b.val &&& 0x7f < 2 ^ 7 :=
  Nat.and_lt_two_pow _ (by norm_num)

theorem or_mod_two_pow64 (a b : Nat) : (a ||| b) % 2 ^ 64 = a % 2 ^ 64 ||| b % 2 ^ 64 := by
  apply Nat.eq_of_testBit_eq
  intro i
  simp only [Nat.testBit_mod_two_pow, Nat.testBit_or, Bool.and_or_distrib_left]

theorem shl64_eq (x s : Nat) : shl64 x s = (2 ^ s * x) % 2 ^ 64 := by
  unfold shl64
  split
  · rw [Nat.shiftLeft_eq, Nat.mul_comm]
  · rename_i h
    have hs : 64 ≤ s := by omega
    obtain ⟨d, rfl⟩ := Nat.exists_eq_add_of_le hs
    rw [Nat.pow_add, Nat.mul_assoc, Nat.mul_mod_right]

/-- One step of the accumulation: OR-ing the next group into a truncated
accumulator is adding it to the untruncated sum. -/
theorem acc_step (S x s : Nat) (hS : S < 2 ^ s) :
    (S % 2 ^ 64) ||| shl64 x s = (S + 2 ^ s * x) % 2 ^ 64 := by
  rw [shl64_eq, Nat.add_comm S, Nat.mul_add_lt_is_or hS, or_mod_two_pow64, Nat.or_comm]

theorem sum_step_lt (S x j : Nat) (hS : S < 2 ^ (7 * j)) (hx : x < 2 ^ 7) :
    S + 2 ^ (7 * j) * x < 2 ^ (7 * (j + 1)) := by
  have h1 : 2 ^ (7 * (j + 1)) = 2 ^ (7 * j) * 2 ^ 7 := by
    rw [show 7 * (j + 1) = 7 * j + 7 by ring, Nat.pow_add]
  have h2 : 2 ^ (7 * j) * (x + 1) ≤ 2 ^ (7 * j) * 2 ^ 7 := Nat.mul_le_mul_left _ hx
  rw [h1]
  calc S + 2 ^ (7 * j) * x < 2 ^ (7 * j) + 2 ^ (7 * j) * x := by omega
    _ = 2 ^ (7 * j) * (x + 1) := by ring
    _ ≤ 2 ^ (7 * j) * 2 ^ 7 := h2

/-- The loop of `ReadUleb128` on a terminated varint `init ++ [last]` followed
by anything: it stops after `last` with the truncated sum. -/
theorem ReadUleb128_loop_spec (init : List Byte) (last : Byte) (rest : List Byte)
    (hinit : ∀ b ∈ init, 128 ≤ b.val) (hlast : last.val < 128) :
    ∀ (S j n : Nat), S < 2 ^ (7 * j) → 7 * (j + init.length) < 2 ^ 64 →
      ReadUleb128.loop (init ++ last :: rest) (S % 2 ^ 64) (7 * j) n
        = ((S + 2 ^ (7 * j) * ulebSum (init ++ [last])) % 2 ^ 64, none,
            n + (init.length + 1)) := by
  induction init with
  | nil =>
    intro S j n hS _
    have h0 : last.val &&& 0x80 = 0 := (byte_and_high last).2 hlast
    rw [List.nil_append, ReadUleb128.loop]
    simp only [h0, if_true, ulebSum, List.length_nil]
    rw [acc_step S _ _ hS]
    simp
  | cons b init ih =>
    intro S j n hS hj
    have hb : ¬ (b.val &&& 0x80 = 0) := by
      rw [byte_and_high]
      have := hinit b (by simp)
      omega
    have hS2 := sum_step_lt S (b.val &&& 0x7f) j hS (byte_and_low_lt b)
    simp only [List.length_cons] at hj
    have hshift : (7 * j + 7) % 2 ^ 64 = 7 * (j + 1) := by
      rw [Nat.mod_eq_of_lt (by omega)]
      ring
    rw [List.cons_append, ReadUleb128.loop]
    simp only [hb, if_false]
    rw [acc_step S _ _ hS, hshift,
      ih (fun c hc => hinit c (by simp [hc])) _ (j + 1) (n + 1) hS2 (by omega)]
    have h1 : 2 ^ (7 * (j + 1)) = 2 ^ (7 * j) * 2 ^ 7 := by
      rw [show 7 * (j + 1) = 7 * j + 7 by ring, Nat.pow_add]
    rw [List.cons_append, ulebSum, h1, List.length_cons]
    congr 2
    · ring
    · omega

/-- The two decoding loops run in lockstep. -/
theorem readUleb128.loop_eq (bs : List Byte) :
    ∀ (result shift n : Nat),
      readUleb128.loop bs result shift n =
        match ReadUleb128.loop bs result shift n with
        | (v, none, m) => (v, m, none)
        | (_, some e, _) => (0, 0, some e) := by
  induction bs with
  | nil => intro result shift n; rfl
  | cons b bs ih =>
    intro result shift n
    simp only [readUleb128.loop, ReadUleb128.loop]
    split
    · rfl
    · exact ih _ _ _

theorem ulebSum_eq_sum (bs : List Byte) :
    ulebSum bs = ∑ i in Finset.range bs.length, ((bs.getD i 0).val &&& 0x7f) * 2 ^ (7 * i) := by
  induction bs with
  | nil => simp [ulebSum]
  | cons b bs ih =>
    rw [ulebSum, List.length_cons, Finset.sum_range_succ', ih, Finset.mul_sum]
    simp only [List.getD_cons_succ, List.getD_cons_zero, Nat.mul_zero, Nat.pow_zero, Nat.mul_one]
    rw [Nat.add_comm]
    congr 1
    apply Finset.sum_congr rfl
    intro i _
    rw [show 7 * (i + 1) = 7 * i + 7 by ring, Nat.pow_add]
    ring

theorem varint_split (b : List Byte) (k : Nat) (hk : k < b.length)
    (hlast : (b.getD k 0).val &&& 0x80 = 0)
    (hinit : ∀ i, i < k → (b.getD i 0).val &&& 0x80 ≠ 0) :
    b = b.take k ++ b.getD k 0 :: b.drop (k + 1) ∧ (b.take k).length = k ∧
    (∀ x ∈ b.take k, 128 ≤ x.val) ∧ (b.getD k 0).val < 128 := by
  refine ⟨?_, ?_, ?_, ?_⟩
  · conv_lhs => rw [← List.take_append_drop k b, List.drop_eq_getElem_cons hk]
    simp [List.getD_eq_getElem?_getD, List.getElem?_eq_getElem hk]
  · rw [List.length_take]; omega
  · intro x hx
    obtain ⟨i, hi, rfl⟩ := List.mem_iff_getElem.1 hx
    have hik : i < k := by rw [List.length_take] at hi; omega
    have h := hinit i hik
    rw [Ne, byte_and_high] at h
    have hget : b.getD i 0 = (b.take k)[i] := by
      rw [List.getElem_take, List.getD_eq_getElem?_getD, List.getElem?_eq_getElem (by omega)]
      rfl
    rw [← hget]
    omega
  · exact (byte_and_high _).1 hlast

theorem and_7f (x : Nat) : x &&& 0x7f = x % 128 :=
  Nat.and_pow_two_sub_one_eq_mod x 7

/-- `ReadUleb128` on a reader whose remaining bytes start with a terminated
varint. -/
theorem ReadUleb128_varint (init : List Byte) (last : Byte) (rest : List Byte)
    (hinit : ∀ b ∈ init, 128 ≤ b.val) (hlast : last.val < 128)
    (hlen : 7 * init.length < 2 ^ 64) (s : List Byte) (p : Nat)
    (hs : s.drop p = init ++ last :: rest) :
    ReadUleb128 ⟨s, p⟩ =
      (ulebSum (init ++ [last]) % 2 ^ 64, none, ⟨s, p + (init.length + 1)⟩) := by
  have h := ReadUleb128_loop_spec init last rest hinit hlast 0 0 0 (by simp) (by simpa using hlen)
  simp only [Nat.zero_mod, Nat.mul_zero, Nat.pow_zero, Nat.one_mul, Nat.zero_add] at h
  simp only [ReadUleb128, Reader.remaining, hs, h]

/-- `readUleb128` on a buffer that starts with a terminated varint. -/
theorem readUleb128_varint (init : List Byte) (last : Byte) (rest : List Byte)
    (hinit : ∀ b ∈ init, 128 ≤ b.val) (hlast : last.val < 128)
    (hlen : 7 * init.length < 2 ^ 64) :
    readUleb128 (init ++ last :: rest) =
      (ulebSum (init ++ [last]) % 2 ^ 64, init.length + 1, none) := by
  have h := ReadUleb128_loop_spec init last rest hinit hlast 0 0 0 (by simp) (by simpa using hlen)
  simp only [Nat.zero_mod, Nat.mul_zero, Nat.pow_zero, Nat.one_mul, Nat.zero_add] at h
  have hne : ¬ (init ++ last :: rest).length = 0 := by simp
  rw [readUleb128, if_neg hne, readUleb128.loop_eq, h]

theorem ReadUleb128.loop_error (bs : List Byte) :
    ∀ (result shift n : Nat),
      ((ReadUleb128.loop bs result shift n).2.1 ≠ none ↔ ∀ b ∈ bs, b.val &&& 0x80 ≠ 0) ∧
      ((ReadUleb128.loop bs result shift n).2.1 ≠ none →
        (ReadUleb128.loop bs result shift n).1 = 0) := by
  induction bs with
  | nil => intro result shift n; simp [ReadUleb128.loop]
  | cons b bs ih =>
    intro result shift n
    rw [ReadUleb128.loop]
    by_cases hb : b.val &&& 0x80 = 0
    · simp [hb]
    · simp only [hb, if_false, List.forall_mem_cons, ne_eq, not_false_eq_true, true_and]
      exact ih _ _ _

theorem encodeUleb128_spec (v : Nat) :
    ∃ init last, encodeUleb128 v = init ++ [last] ∧ (∀ b ∈ init, 128 ≤ b.val) ∧
      last.val < 128 ∧ ulebSum (init ++ [last]) = v := by
  induction v using Nat.strong_induction_on with
  | _ v ih =>
    rw [encodeUleb128]
    split
    · rename_i h
      refine ⟨[], ⟨v, by omega⟩, rfl, by simp, h, ?_⟩
      simp only [List.nil_append, ulebSum, and_7f]
      omega
    · rename_i h
      obtain ⟨init, last, he, hi, hl, hs⟩ := ih (v / 128) (by omega)
      refine ⟨⟨v % 128 + 128, by omega⟩ :: init, last, by rw [he]; rfl, ?_, hl, ?_⟩
      · intro b hb
        rcases List.mem_cons.1 hb with rfl | hb
        · simp
        · exact hi b hb
      · rw [List.cons_append, ulebSum, hs, and_7f]
        simp only []
        omega

theorem encodeUleb128_length (m : Nat) :
    ∀ v, v < 128 ^ (m + 1) → (encodeUleb128 v).length ≤ m + 1 := by
  induction m with
  | zero =>
    intro v hv
    rw [encodeUleb128, dif_pos (by simpa using hv)]
    simp
  | succ m ih =>
    intro v hv
    rw [encodeUleb128]
    split
    · simp
    · have : v / 128 < 128 ^ (m + 1) := by
        rw [Nat.div_lt_iff_lt_mul (by norm_num)]
        rw [Nat.pow_succ] at hv
        exact hv
      have := ih _ this
      simp only [List.length_cons]
      omega

/-! ## Reading the fields of a well-formed blob -/

theorem isVarint_split : ∀ bs : List Byte, isVarint bs = true →
    ∃ init last, bs = init ++ [last] ∧ (∀ b ∈ init, 128 ≤ b.val) ∧ last.val < 128
  | [], h => by simp [isVarint] at h
  | [b], h => ⟨[], b, rfl, by simp, by simpa [isVarint] using h⟩
  | b :: c :: bs, h => by
    simp only [isVarint, Bool.and_eq_true, decide_eq_true_eq] at h
    obtain ⟨init, last, he, hi, hl⟩ := isVarint_split (c :: bs) h.2
    refine ⟨b :: init, last, by rw [he]; rfl, ?_, hl⟩
    intro x hx
    rcases List.mem_cons.1 hx with rfl | hx
    · exact h.1
    · exact hi x hx

theorem drop_add_of_drop_eq (s a rest : List Byte) (p : Nat) (h : s.drop p = a ++ rest) :
    s.drop (p + a.length) = rest := by
  rw [← List.drop_drop, h]
  simp

theorem drop_add_of_drop_eq_cons (s a : List Byte) (x : Byte) (rest : List Byte) (p : Nat)
    (h : s.drop p = a ++ x :: rest) : s.drop (p + (a.length + 1)) = rest := by
  have h2 : s.drop p = (a ++ [x]) ++ rest := by rw [h]; simp
  have h3 := drop_add_of_drop_eq s (a ++ [x]) rest p h2
  rwa [List.length_append, List.length_singleton] at h3

theorem length_le_of_drop_eq (s a rest : List Byte) (p : Nat) (h : s.drop p = a ++ rest) :
    a.length ≤ s.length := by
  have h1 : (s.drop p).length = a.length + rest.length := by rw [h, List.length_append]
  rw [List.length_drop] at h1
  omega

/-- Reading a terminated varint that lies at the cursor. -/
theorem ReadUleb128_isVarint (bs rest s : List Byte) (p : Nat) (hv : isVarint bs = true)
    (hlen : s.length < 2 ^ 61) (hs : s.drop p = bs ++ rest) :
    ReadUleb128 ⟨s, p⟩ = (ulebValue bs, none, ⟨s, p + bs.length⟩) := by
  obtain ⟨init, last, rfl, hi, hl⟩ := isVarint_split bs hv
  have hle := length_le_of_drop_eq s _ rest p hs
  rw [List.length_append, List.length_singleton] at hle
  have h7 : 7 * init.length < 2 ^ 64 := by omega
  rw [ReadUleb128_varint init last rest hi hl h7 s p (by rw [hs]; simp)]
  simp [ulebValue]

/-- Reading a NUL-free string and its terminator into the buffer `buf`. -/
theorem readCString_noNul (edge rest : List Byte) (h : noNul edge = true) :
    ∀ (buf : List Byte) (n : Nat),
      readCString (edge ++ 0 :: rest) buf n = (buf ++ edge, n + (edge.length + 1)) := by
  induction edge with
  | nil => intro buf n; simp [readCString]
  | cons b edge ih =>
    intro buf n
    simp only [noNul, List.all_cons, Bool.and_eq_true, decide_eq_true_eq] at h
    rw [List.cons_append, readCString, if_neg h.1, ih h.2]
    simp only [List.append_assoc, List.singleton_append, List.length_cons]
    congr 1
    omega

/-- The terminal block of `parseTrie` on a well-formed payload at the cursor:
it builds the entry of the payload. -/
theorem parseTrie.terminal_spec (F : ExportFlagOps) (L : Nat) (tNode : trieNode)
    (t : Terminal) (blob rest : List Byte) (p : Nat) (hlen : blob.length < 2 ^ 61)
    (hwf : t.wf F = true) (hs : blob.drop p = t.bytes F ++ rest) :
    ∃ q, parseTrie.terminal F L tNode ⟨blob, p⟩ =
      .ok (t.entry F L tNode.SymBytes, ⟨blob, q⟩) := by
  simp only [Terminal.wf, Bool.and_eq_true] at hwf
  obtain ⟨⟨⟨hf, hre⟩, hv⟩, hst⟩ := hwf
  cases hR : F.ReExport (ulebValue t.flags) <;> cases hS : F.StubAndResolver (ulebValue t.flags)
  all_goals
    simp only [Terminal.bytes, hR, hS, if_true, if_false, Bool.false_eq_true, List.append_assoc,
      List.singleton_append, List.cons_append, List.nil_append, List.append_nil,
      Bool.and_eq_true] at hs hre hst
    have e1 := ReadUleb128_isVarint t.flags _ blob p hf hlen hs
    have hs1 := drop_add_of_drop_eq _ _ _ _ hs
    unfold parseTrie.terminal
    rw [e1]
    simp only [hR, hS, if_true, if_false, Bool.false_eq_true, Terminal.entry, false_and,
      true_and]
    generalize p + t.flags.length = q1 at hs1 ⊢
  · have e4 := ReadUleb128_isVarint t.value _ blob _ hv hlen hs1
    rw [e4]
    exact ⟨q1 + t.value.length, by simp⟩
  · have e4 := ReadUleb128_isVarint t.value _ blob _ hv hlen hs1
    have hs4 := drop_add_of_drop_eq _ _ _ _ hs1
    rw [e4]
    simp only []
    generalize q1 + t.value.length = q4 at hs4 ⊢
    have e5 := ReadUleb128_isVarint t.resolver _ blob _ hst hlen hs4
    rw [e5]
    exact ⟨q4 + t.resolver.length, by simp⟩
  · have e2 := ReadUleb128_isVarint t.ordinal _ blob _ hre.1 hlen hs1
    have hs2 := drop_add_of_drop_eq _ _ _ _ hs1
    rw [e2]
    simp only [Reader.remaining]
    generalize q1 + t.ordinal.length = q2 at hs2 ⊢
    have e3 : readCString (blob.drop q2) [] 0 = (t.name, t.name.length + 1) := by
      rw [hs2, readCString_noNul _ _ hre.2]
      simp
    have hs3 := drop_add_of_drop_eq_cons _ _ _ _ _ hs2
    rw [e3]
    simp only []
    generalize q2 + (t.name.length + 1) = q3 at hs3 ⊢
    have e4 := ReadUleb128_isVarint t.value _ blob _ hv hlen hs3
    rw [e4]
    by_cases hn : t.name = []
    · exact ⟨q3 + t.value.length, by simp [hn]⟩
    · have hpos : 0 < t.name.length := List.length_pos.2 hn
      exact ⟨q3 + t.value.length, by simp [hn, hpos, openParen, closeParen]⟩
  · have e2 := ReadUleb128_isVarint t.ordinal _ blob _ hre.1 hlen hs1
    have hs2 := drop_add_of_drop_eq _ _ _ _ hs1
    rw [e2]
    simp only [Reader.remaining]
    generalize q1 + t.ordinal.length = q2 at hs2 ⊢
    have e3 : readCString (blob.drop q2) [] 0 = (t.name, t.name.length + 1) := by
      rw [hs2, readCString_noNul _ _ hre.2]
      simp
    have hs3 := drop_add_of_drop_eq_cons _ _ _ _ _ hs2
    rw [e3]
    simp only []
    generalize q2 + (t.name.length + 1) = q3 at hs3 ⊢
    have e4 := ReadUleb128_isVarint t.value _ blob _ hv hlen hs3
    have hs4 := drop_add_of_drop_eq _ _ _ _ hs3
    rw [e4]
    simp only []
    generalize q3 + t.value.length = q4 at hs4 ⊢
    have e5 := ReadUleb128_isVarint t.resolver _ blob _ hst hlen hs4
    rw [e5]
    by_cases hn : t.name = []
    · exact ⟨q4 + t.resolver.length, by simp [hn]⟩
    · have hpos : 0 < t.name.length := List.length_pos.2 hn
      exact ⟨q4 + t.resolver.length, by simp [hn, hpos, openParen, closeParen]⟩

/-! ## The work list of `parseTrie` on a well-formed blob -/

theorem Forest.push_wf (F : ExportFlagOps) (blob pfx : List Byte) :
    ∀ (kids : Forest) (stack : List PendingNode), kids.wf F blob = true →
      kids.namesFit pfx = true →
      (∀ n ∈ stack, n.wf F blob) → ∀ n ∈ kids.push pfx stack, n.wf F blob := by
  intro kids
  induction kids with
  | nil => intro stack _ _ hst; exact hst
  | cons edge offset terminal kids rest _ ihr =>
    intro stack hk hfit hst
    simp only [Forest.wf, Bool.and_eq_true] at hk
    simp only [Forest.namesFit, Bool.and_eq_true, Bool.or_eq_true, decide_eq_true_eq] at hfit
    obtain ⟨⟨⟨⟨_, _⟩, hnode⟩, hkids⟩, hrest⟩ := hk
    obtain ⟨⟨hf1, hf2⟩, hf3⟩ := hfit
    apply ihr _ hrest hf3
    intro n hn
    rcases List.mem_cons.1 hn with rfl | hn
    · exact ⟨hnode, hkids, hf1, hf2⟩
    · exact hst n hn

theorem Forest.push_size (pfx : List Byte) :
    ∀ (kids : Forest) (stack : List PendingNode),
      ((kids.push pfx stack).map PendingNode.size).sum
        = kids.size + (stack.map PendingNode.size).sum := by
  intro kids
  induction kids with
  | nil => intro stack; simp [Forest.push, Forest.size]
  | cons edge offset terminal kids rest _ ihr =>
    intro stack
    rw [Forest.push, ihr]
    simp only [List.map_cons, List.sum_cons, PendingNode.size, Forest.size]
    omega

theorem Forest.push_terminals (pfx : List Byte) :
    ∀ (kids : Forest) (stack : List PendingNode),
      (kids.push pfx stack).flatMap PendingNode.terminals
        = kids.terminalsRev pfx ++ stack.flatMap PendingNode.terminals := by
  intro kids
  induction kids with
  | nil => intro stack; simp [Forest.push, Forest.terminalsRev]
  | cons edge offset terminal kids rest _ ihr =>
    intro stack
    rw [Forest.push, ihr]
    simp only [List.flatMap_cons, PendingNode.terminals, Forest.terminalsRev, List.append_assoc]

/-- The child loop of `parseTrie` on a well-formed child list at the cursor: it
pushes the children in encoded order, when the name of the node fits the
capacity of the buffer. -/
theorem parseTrie.children_spec (F : ExportFlagOps) (blob : List Byte)
    (hlen : blob.length < 2 ^ 61) (tNode : trieNode) :
    ∀ (kids : Forest) (rest : List Byte) (p : Nat) (stack : List PendingNode),
      kids.wf F blob = true → (kids.length ≠ 0 → tNode.SymBytes.length ≤ 32000) →
      blob.drop p = kids.edgeBytes ++ rest →
      ∃ q, parseTrie.children tNode kids.length ⟨blob, p⟩ (stack.map PendingNode.toNode)
        = .ok ((kids.push tNode.SymBytes stack).map PendingNode.toNode, ⟨blob, q⟩) := by
  intro kids
  induction kids with
  | nil =>
    intro rest p stack _ _ _
    exact ⟨p, rfl⟩
  | cons edge offset terminal kids rest' _ ihr =>
    intro rest p stack hk hfit hs
    simp only [Forest.wf, Bool.and_eq_true] at hk
    obtain ⟨⟨⟨⟨hedge, hoff⟩, _⟩, _⟩, hrest⟩ := hk
    have hcap : ¬ 32000 < tNode.SymBytes.length := by
      have := hfit (by simp [Forest.length])
      omega
    simp only [Forest.edgeBytes, List.append_assoc, List.cons_append] at hs
    have e1 : readCString (blob.drop p) tNode.SymBytes 0
        = (tNode.SymBytes ++ edge, edge.length + 1) := by
      rw [hs, readCString_noNul _ _ hedge]
      simp
    have hs1 := drop_add_of_drop_eq_cons _ _ _ _ _ hs
    rw [Forest.length, parseTrie.children, if_neg hcap]
    simp only [Reader.remaining]
    rw [e1]
    simp only []
    generalize p + (edge.length + 1) = q1 at hs1 ⊢
    have e2 := ReadUleb128_isVarint offset _ blob _ hoff hlen hs1
    have hs2 := drop_add_of_drop_eq _ _ _ _ hs1
    rw [e2]
    simp only []
    obtain ⟨q, hq⟩ := ihr rest (q1 + offset.length)
      ({ name := tNode.SymBytes ++ edge, offset := ulebValue offset, terminal := terminal,
         kids := kids } :: stack) hrest (fun _ => by omega) hs2
    exact ⟨q, hq⟩

theorem byte_ofNat_val (a : Nat) (h : a < 256) : (Fin.ofNat a : Byte).val = a :=
  Nat.mod_eq_of_lt h

theorem toInt64_small (u : Nat) (h : u < 2 ^ 63) : toInt64 u = (u : Int) := by
  unfold toInt64
  rw [if_pos h]

theorem seek_small (s : List Byte) (q u : Nat) (h : u < 2 ^ 63) :
    (Reader.Seek ⟨s, q⟩ (toInt64 u)) = ⟨s, u⟩ := by
  rw [toInt64_small u h, Reader.Seek, if_neg (by omega)]
  simp

theorem ulebValue_single (b : Byte) (h : b.val < 128) : ulebValue [b] = b.val := by
  simp only [ulebValue, ulebSum, and_7f]
  omega

theorem isVarint_ne_nil (bs : List Byte) (h : isVarint bs = true) : bs ≠ [] := by
  intro hn
  subst hn
  simp [isVarint] at h

theorem Terminal.bytes_length_pos (F : ExportFlagOps) (t : Terminal) (h : t.wf F = true) :
    0 < (t.bytes F).length := by
  simp only [Terminal.wf, Bool.and_eq_true] at h
  have hf := List.length_pos.2 (isVarint_ne_nil _ h.1.1.1)
  simp only [Terminal.bytes, List.length_append]
  omega

/-- What `nodeAt` says, unfolded. -/
theorem nodeAt_unfold (F : ExportFlagOps) (blob : List Byte) (off : Nat)
    (terminal : Option Terminal) (kids : Forest) (h : nodeAt F blob off terminal kids = true) :
    (payloadBytes F terminal).length < 128 ∧ kids.length < 256 ∧
    (∀ t, terminal = some t → t.wf F = true) ∧
    (∃ rest, blob.drop off =
      Fin.ofNat (payloadBytes F terminal).length
        :: (payloadBytes F terminal ++ Fin.ofNat kids.length :: (kids.edgeBytes ++ rest))) ∧
    off < blob.length := by
  simp only [nodeAt, Bool.and_eq_true, decide_eq_true_eq] at h
  obtain ⟨⟨⟨h1, h2⟩, h3⟩, h4⟩ := h
  have h5 : blob.drop off = nodeBytes F terminal kids
      ++ (blob.drop off).drop (nodeBytes F terminal kids).length := by
    conv_lhs => rw [← List.take_append_drop (nodeBytes F terminal kids).length (blob.drop off), h4]
  refine ⟨h1, h2, ?_, ⟨(blob.drop off).drop (nodeBytes F terminal kids).length, ?_⟩, ?_⟩
  · intro t ht
    subst ht
    exact h3
  · conv_lhs => rw [h5]
    simp [nodeBytes]
  · by_contra hlt
    rw [List.drop_eq_nil_of_le (by omega)] at h5
    simp [nodeBytes] at h5

/-- One iteration of the outer loop of `parseTrie` on a node that the blob
holds at its offset, up to the child loop: the entry of the node is appended
when it is terminal, and the child loop starts behind the child count. -/
theorem parseTrie_loop_node (F : ExportFlagOps) (L : Nat) (blob : List Byte)
    (hlen : blob.length < 2 ^ 61) (fuel : Nat) (n : PendingNode) (nodes : List trieNode)
    (entries : List trieEntry) (q : Nat)
    (hnode : nodeAt F blob n.offset n.terminal n.kids = true) :
    ∃ p rest, blob.drop p = n.kids.edgeBytes ++ rest ∧
      parseTrie.loop F L (fuel + 1) (n.toNode :: nodes) entries ⟨blob, q⟩ =
        match parseTrie.children n.toNode n.kids.length ⟨blob, p⟩ nodes with
        | .error fail => some (.error fail)
        | .ok (nodes, r) =>
          parseTrie.loop F L fuel nodes
            (entries ++ (match n.terminal with
              | none => []
              | some t => [t.entry F L n.name])) r := by
  obtain ⟨hpl, hcnt, htw, ⟨rest, hs⟩, hoff⟩ := nodeAt_unfold F blob _ _ _ hnode
  have hts : (Fin.ofNat (payloadBytes F n.terminal).length : Byte).val
      = (payloadBytes F n.terminal).length := byte_ofNat_val _ (by omega)
  have e1 := ReadUleb128_isVarint [Fin.ofNat (payloadBytes F n.terminal).length] _ blob
    n.offset (by simp [isVarint, hts, hpl]) hlen hs
  rw [ulebValue_single _ (by rw [hts]; exact hpl), hts, List.length_singleton] at e1
  have hs1 : blob.drop (n.offset + 1) = payloadBytes F n.terminal
      ++ Fin.ofNat n.kids.length :: (n.kids.edgeBytes ++ rest) :=
    drop_add_of_drop_eq blob [_] _ _ hs
  have hs2 : blob.drop (n.offset + (payloadBytes F n.terminal).length + 1)
      = Fin.ofNat n.kids.length :: (n.kids.edgeBytes ++ rest) := by
    have := drop_add_of_drop_eq blob (_ :: payloadBytes F n.terminal) _ _ hs
    rw [List.length_cons, ← Nat.add_assoc] at this
    exact this
  have hs3 : blob.drop (n.offset + (payloadBytes F n.terminal).length + 1 + 1)
      = n.kids.edgeBytes ++ rest :=
    drop_add_of_drop_eq blob [_] _ _ hs2
  have hseek : (n.offset + (payloadBytes F n.terminal).length + 1) % 2 ^ 64
      = n.offset + (payloadBytes F n.terminal).length + 1 := Nat.mod_eq_of_lt (by omega)
  refine ⟨_, rest, hs3, ?_⟩
  rw [parseTrie.loop]
  simp only []
  rw [show (n.toNode).Offset = n.offset from rfl, seek_small blob q n.offset (by omega), e1]
  simp only []
  rw [hseek]
  have hrb : Reader.ReadByte ⟨blob, n.offset + (payloadBytes F n.terminal).length + 1⟩
      = (some (Fin.ofNat n.kids.length), ⟨blob,
          n.offset + (payloadBytes F n.terminal).length + 1 + 1⟩) := by
    simp only [Reader.ReadByte, Reader.remaining, hs2]
  cases hterm : n.terminal with
  | none =>
    simp only [hterm, payloadBytes, List.length_nil, ne_eq, not_true_eq_false, if_false,
      Nat.add_zero] at hrb ⊢
    rw [seek_small blob _ _ (by omega), hrb]
    simp only []
    rw [byte_ofNat_val _ hcnt]
    simp only [List.append_nil]
  | some t =>
    have hpos := Terminal.bytes_length_pos F t (htw t hterm)
    simp only [hterm, payloadBytes] at hrb hs1 hpl ⊢
    obtain ⟨q1, hq1⟩ := parseTrie.terminal_spec F L n.toNode t blob _ _ hlen (htw t hterm) hs1
    rw [if_pos (by omega), hq1]
    simp only []
    rw [seek_small blob _ _ (by omega), hrb]
    simp only []
    rw [byte_ofNat_val _ hcnt]
    rfl

/-- A node that the blob holds at its offset, that has a child and whose name
is longer than 32000 bytes makes `parseTrie` panic when it is visited. -/
theorem parseTrie_loop_panic (F : ExportFlagOps) (L : Nat) (blob : List Byte)
    (hlen : blob.length < 2 ^ 61) (fuel : Nat) (n : PendingNode) (nodes : List trieNode)
    (entries : List trieEntry) (q : Nat)
    (hnode : nodeAt F blob n.offset n.terminal n.kids = true)
    (hkid : n.kids.length ≠ 0) (hbig : 32000 < n.name.length) :
    parseTrie.loop F L (fuel + 1) (n.toNode :: nodes) entries ⟨blob, q⟩
      = some (.error .panic) := by
  obtain ⟨p, rest, _, h⟩ := parseTrie_loop_node F L blob hlen fuel n nodes entries q hnode
  rw [h]
  obtain ⟨k, hk⟩ := Nat.exists_eq_succ_of_ne_zero hkid
  rw [hk, parseTrie.children, if_pos (by exact hbig)]

/-- The outer loop of `parseTrie` on a work list of well-formed pending nodes:
with fuel for every node of their subtrees it returns the entries so far
followed by the entries of the terminal nodes of the work list, top first. -/
theorem parseTrie_loop_spec (F : ExportFlagOps) (L : Nat) (blob : List Byte)
    (hlen : blob.length < 2 ^ 61) :
    ∀ (fuel : Nat) (stack : List PendingNode) (entries : List trieEntry) (q : Nat),
      (∀ n ∈ stack, n.wf F blob) → (stack.map PendingNode.size).sum ≤ fuel →
      parseTrie.loop F L fuel (stack.map PendingNode.toNode) entries ⟨blob, q⟩
        = some (.ok (entries ++ (stack.flatMap PendingNode.terminals).map
            (fun pt => pt.2.entry F L pt.1))) := by
  intro fuel
  induction fuel with
  | zero =>
    intro stack entries q _ hsz
    cases stack with
    | nil => simp [parseTrie.loop]
    | cons n stack =>
      simp only [List.map_cons, List.sum_cons, PendingNode.size] at hsz
      omega
  | succ fuel ih =>
    intro stack entries q hwf hsz
    cases stack with
    | nil => simp [parseTrie.loop]
    | cons n stack =>
      obtain ⟨hnode, hkids, hfit, hfits⟩ := hwf n (by simp)
      obtain ⟨p, rest, hs3, hstep⟩ := parseTrie_loop_node F L blob hlen fuel n
        (stack.map PendingNode.toNode) entries q hnode
      obtain ⟨q2, hch⟩ := parseTrie.children_spec F blob hlen n.toNode n.kids rest p stack hkids
        (fun h0 => by
          rcases hfit with h | h
          · exact absurd h h0
          · exact h) hs3
      have hwf2 := Forest.push_wf F blob n.name n.kids stack hkids hfits
        (fun m hm => hwf m (List.mem_cons_of_mem _ hm))
      have hsz2 : ((n.kids.push n.name stack).map PendingNode.size).sum ≤ fuel := by
        rw [Forest.push_size]
        simp only [List.map_cons, List.sum_cons, PendingNode.size] at hsz
        omega
      rw [List.map_cons, hstep, hch]
      simp only []
      rw [show n.toNode.SymBytes = n.name from rfl, ih _ _ q2 hwf2 hsz2]
      cases hterm : n.terminal <;>
        simp [PendingNode.terminals, hterm, Forest.push_terminals]

/-- `parseTrie` on a well-formed blob in which the names of the nodes that have
children fit 32000 bytes, with fuel for every node: it returns the entries of
the terminal nodes, the root first, then the descendants depth-first with the
children of every node taken last-encoded first. -/
theorem parseTrie_spec (F : ExportFlagOps) (blob : List Byte) (terminal : Option Terminal)
    (kids : Forest) (L fuel : Nat) (hwf : WellFormed F blob terminal kids)
    (hfit : kids.namesFit [] = true) (hfuel : kids.size + 1 ≤ fuel) :
    parseTrie F blob L fuel = some (.ok
      ((rootTerminal terminal ++ kids.terminalsRev []).map (fun pt => pt.2.entry F L pt.1))) := by
  obtain ⟨hlen, hnode, hkids⟩ := hwf
  have h := parseTrie_loop_spec F L blob hlen fuel [rootNode terminal kids] [] 0
    (by
      intro n hn
      rw [List.mem_singleton] at hn
      subst hn
      exact ⟨hnode, hkids, Or.inr (by simp [rootNode]), hfit⟩)
    (by simpa [PendingNode.size, rootNode] using hfuel)
  have ht : (rootNode terminal kids).terminals = rootTerminal terminal ++ kids.terminalsRev [] := by
    cases terminal <;> rfl
  simp only [List.flatMap_cons, List.flatMap_nil, List.append_nil, List.nil_append, ht] at h
  exact h

theorem Forest.push_encoded (F : ExportFlagOps) (blob pfx : List Byte) :
    ∀ (kids : Forest) (stack : List PendingNode), kids.wf F blob = true →
      (∀ n ∈ stack, n.encoded F blob) → ∀ n ∈ kids.push pfx stack, n.encoded F blob := by
  intro kids
  induction kids with
  | nil => intro stack _ hst; exact hst
  | cons edge offset terminal kids rest _ ihr =>
    intro stack hk hst
    simp only [Forest.wf, Bool.and_eq_true] at hk
    obtain ⟨⟨⟨⟨_, _⟩, hnode⟩, hkids⟩, hrest⟩ := hk
    apply ihr _ hrest
    intro n hn
    rcases List.mem_cons.1 hn with rfl | hn
    · exact ⟨hnode, hkids⟩
    · exact hst n hn

/-- The outer loop of `parseTrie` on a work list of pending nodes that the blob
holds: whenever it returns entries, they are the entries so far followed by the
entries of the terminal nodes of the work list, top first. -/
theorem parseTrie_loop_sound (F : ExportFlagOps) (L : Nat) (blob : List Byte)
    (hlen : blob.length < 2 ^ 61) :
    ∀ (fuel : Nat) (stack : List PendingNode) (entries : List trieEntry) (q : Nat)
      (es : List trieEntry),
      (∀ n ∈ stack, n.encoded F blob) →
      parseTrie.loop F L fuel (stack.map PendingNode.toNode) entries ⟨blob, q⟩ = some (.ok es) →
      es = entries ++ (stack.flatMap PendingNode.terminals).map
            (fun pt => pt.2.entry F L pt.1) := by
  intro fuel
  induction fuel with
  | zero =>
    intro stack entries q es _ h
    cases stack with
    | nil =>
      simp only [List.map_nil, parseTrie.loop, Option.some.injEq, Except.ok.injEq] at h
      simp [h]
    | cons n stack => simp [parseTrie.loop] at h
  | succ fuel ih =>
    intro stack entries q es henc h
    cases stack with
    | nil =>
      simp only [List.map_nil, parseTrie.loop, Option.some.injEq, Except.ok.injEq] at h
      simp [h]
    | cons n stack =>
      obtain ⟨hnode, hkids⟩ := henc n (by simp)
      by_cases hbig : n.kids.length ≠ 0 ∧ 32000 < n.name.length
      · rw [List.map_cons, parseTrie_loop_panic F L blob hlen fuel n _ entries q hnode
          hbig.1 hbig.2] at h
        simp at h
      · obtain ⟨p, rest, hs3, hstep⟩ := parseTrie_loop_node F L blob hlen fuel n
          (stack.map PendingNode.toNode) entries q hnode
        obtain ⟨q2, hch⟩ := parseTrie.children_spec F blob hlen n.toNode n.kids rest p stack hkids
          (fun h0 => by
            have : ¬ 32000 < n.name.length := fun hh => hbig ⟨h0, hh⟩
            show n.name.length ≤ 32000
            omega) hs3
        have henc2 := Forest.push_encoded F blob n.name n.kids stack hkids
          (fun m hm => henc m (List.mem_cons_of_mem _ hm))
        rw [List.map_cons, hstep, hch] at h
        simp only [] at h
        rw [show n.toNode.SymBytes = n.name from rfl] at h
        rw [ih _ _ q2 es henc2 h]
        cases hterm : n.terminal <;>
          simp [PendingNode.terminals, hterm, Forest.push_terminals]

/-- Whenever `parseTrie` returns entries on a well-formed blob, they are the
entries of the terminal nodes, the root first, then the descendants depth-first
with the children of every node taken last-encoded first. -/
theorem parseTrie_sound (F : ExportFlagOps) (blob : List Byte) (terminal : Option Terminal)
    (kids : Forest) (L fuel : Nat) (es : List trieEntry) (hwf : WellFormed F blob terminal kids)
    (h : parseTrie F blob L fuel = some (.ok es)) :
    es = (rootTerminal terminal ++ kids.terminalsRev []).map (fun pt => pt.2.entry F L pt.1) := by
  obtain ⟨hlen, hnode, hkids⟩ := hwf
  have h2 := parseTrie_loop_sound F L blob hlen fuel [rootNode terminal kids] [] 0 es
    (by
      intro n hn
      rw [List.mem_singleton] at hn
      subst hn
      exact ⟨hnode, hkids⟩) h
  have ht : (rootNode terminal kids).terminals = rootTerminal terminal ++ kids.terminalsRev [] := by
    cases terminal <;> rfl
  simp only [List.flatMap_cons, List.flatMap_nil, List.append_nil, List.nil_append, ht] at h2
  exact h2

theorem Forest.terminalsRev_perm :
    ∀ (kids : Forest) (pfx : List Byte), (kids.terminalsRev pfx).Perm (kids.terminals pfx) := by
  intro kids
  induction kids with
  | nil => intro pfx; exact List.Perm.refl _
  | cons edge offset terminal kids rest ihk ihr =>
    intro pfx
    simp only [Forest.terminalsRev, Forest.terminals, List.append_assoc]
    exact List.perm_append_comm.trans
      (List.Perm.append (List.Perm.append_left _ (ihk _)) (ihr _)
        |>.trans (by rw [List.append_assoc]))

theorem forall₂_map_self {α β : Type} (R : β → α → Prop) (f : α → β) (l : List α)
    (h : ∀ x ∈ l, R (f x) x) : List.Forall₂ R (l.map f) l := by
  induction l with
  | nil => exact List.Forall₂.nil
  | cons x l ih =>
    exact List.Forall₂.cons (h x (by simp)) (ih (fun y hy => h y (List.mem_cons_of_mem _ hy)))

theorem forall₂_map_map {α β : Type} (R : β → β → Prop) (f g : α → β) (l : List α)
    (h : ∀ x ∈ l, R (f x) (g x)) : List.Forall₂ R (l.map f) (l.map g) := by
  induction l with
  | nil => exact List.Forall₂.nil
  | cons x l ih =>
    exact List.Forall₂.cons (h x (by simp)) (ih (fun y hy => h y (List.mem_cons_of_mem _ hy)))

theorem threeSymbolTrie_wf : WellFormed machOFlags threeSymbolTrie none threeSymbolKids :=
  ⟨by decide, by decide, by decide⟩

theorem reExportTrie_wf (flags : Byte) (h : flags = 0x08 ∨ flags = 0x09 ∨ flags = 0x0a) :
    WellFormed machOFlags (reExportTrie flags) none (reExportKids flags) := by
  rcases h with rfl | rfl | rfl <;> exact ⟨by decide, by decide, by decide⟩

theorem stubTrie_wf : WellFormed machOFlags stubTrie none stubKids :=
  ⟨by decide, by decide, by decide⟩

/-! ## Claims on the varint decoders -/

/-- C1 (varint round trip): for every unsigned 64-bit value `v`, `readUleb128`
on the canonical ULEB128 encoding of `v` returns `v`, the length of the
encoding and no error, and `ReadUleb128` on a reader over the same bytes
returns `v` with no error, leaving the reader at the end of the encoding. -/
theorem uleb128_round_trip (v : Nat) (hv : v < 2 ^ 64) :
    readUleb128 (encodeUleb128 v) = (v, (encodeUleb128 v).length, none) ∧
    ReadUleb128 ⟨encodeUleb128 v, 0⟩
      = (v, none, ⟨encodeUleb128 v, (encodeUleb128 v).length⟩) := by
  obtain ⟨init, last, he, hi, hl, hs⟩ := encodeUleb128_spec v
  have hlen : (encodeUleb128 v).length ≤ 10 :=
    encodeUleb128_length 9 v (lt_of_lt_of_le hv (by norm_num))
  have hlen2 : 7 * init.length < 2 ^ 64 := by
    rw [he, List.length_append, List.length_singleton] at hlen
    omega
  have hmod : v % 2 ^ 64 = v := Nat.mod_eq_of_lt hv
  constructor
  · rw [he, readUleb128_varint init last [] hi hl hlen2, hs, hmod]
    simp
  · rw [he, ReadUleb128_varint init last [] hi hl hlen2 (init ++ [last]) 0 (by simp), hs, hmod]
    simp

/-- Witness for C1 at `v = 300`, whose encoding is `ac 02`. -/
theorem uleb128_round_trip_witness :
    (300 : Nat) < 2 ^ 64 ∧ encodeUleb128 300 = [0xac, 0x02] ∧
    readUleb128 (encodeUleb128 300) = (300, (encodeUleb128 300).length, none) :=
  ⟨by norm_num, by simp [encodeUleb128], (uleb128_round_trip 300 (by norm_num)).1⟩

/-- C9 (varint decoding definition): if the first byte of `b` with the high bit
clear is at index `k` (and the `uint64` shift counter has not wrapped by then,
which holds for every slice that fits in memory), then `ReadUleb128` at a
cursor whose remaining bytes are `b` and `readUleb128` on `b` both return
`(Σ i ≤ k, (b[i] & 0x7f) * 2 ^ (7 i)) mod 2 ^ 64` with no error, the reader
advances by exactly `k + 1` bytes, `readUleb128` reports length `k + 1`, and
any input that agrees with `b` on its first `k + 1` bytes gives the same
results. -/
theorem uleb128_decode_definition (b : List Byte) (k : Nat) (hk : k < b.length)
    (hlast : (b.getD k 0).val &&& 0x80 = 0)
    (hinit : ∀ i, i < k → (b.getD i 0).val &&& 0x80 ≠ 0)
    (hshift : 7 * k < 2 ^ 64) :
    (∀ (s : List Byte) (p : Nat), s.drop p = b →
      ReadUleb128 ⟨s, p⟩ =
        ((∑ i in Finset.range (k + 1), ((b.getD i 0).val &&& 0x7f) * 2 ^ (7 * i)) % 2 ^ 64,
          none, ⟨s, p + (k + 1)⟩)) ∧
    readUleb128 b =
      ((∑ i in Finset.range (k + 1), ((b.getD i 0).val &&& 0x7f) * 2 ^ (7 * i)) % 2 ^ 64,
        k + 1, none) ∧
    (∀ c : List Byte, c.take (k + 1) = b.take (k + 1) →
      readUleb128 c = readUleb128 b ∧
      (ReadUleb128 ⟨c, 0⟩).1 = (ReadUleb128 ⟨b, 0⟩).1 ∧
      (ReadUleb128 ⟨c, 0⟩).2.1 = (ReadUleb128 ⟨b, 0⟩).2.1 ∧
      (ReadUleb128 ⟨c, 0⟩).2.2.i = (ReadUleb128 ⟨b, 0⟩).2.2.i) := by
  obtain ⟨hb, hlen, hi, hl⟩ := varint_split b k hk hlast hinit
  have hsum : ulebSum (b.take k ++ [b.getD k 0]) =
      ∑ i in Finset.range (k + 1), ((b.getD i 0).val &&& 0x7f) * 2 ^ (7 * i) := by
    rw [ulebSum_eq_sum, List.length_append, List.length_singleton, hlen]
    apply Finset.sum_congr rfl
    intro i hi
    have hik : i < k + 1 := Finset.mem_range.1 hi
    congr 3
    conv_rhs => rw [hb]
    by_cases h : i < k
    · rw [List.getD_append _ _ _ _ (by omega), List.getD_append _ _ _ _ (by omega)]
    · have hik2 : i = k := by omega
      subst hik2
      rw [List.getD_append_right _ _ _ _ (by omega), List.getD_append_right _ _ _ _ (by omega)]
      simp [hlen]
  have hlen7 : 7 * (b.take k).length < 2 ^ 64 := by rw [hlen]; exact hshift
  have hR : ∀ (s : List Byte) (p : Nat) (rest : List Byte),
      s.drop p = b.take k ++ b.getD k 0 :: rest →
      ReadUleb128 ⟨s, p⟩ =
        ((∑ i in Finset.range (k + 1), ((b.getD i 0).val &&& 0x7f) * 2 ^ (7 * i)) % 2 ^ 64,
          none, ⟨s, p + (k + 1)⟩) := by
    intro s p rest hs
    rw [ReadUleb128_varint _ _ rest hi hl hlen7 s p hs, hsum, hlen]
  have hr : ∀ rest : List Byte, readUleb128 (b.take k ++ b.getD k 0 :: rest) =
      ((∑ i in Finset.range (k + 1), ((b.getD i 0).val &&& 0x7f) * 2 ^ (7 * i)) % 2 ^ 64,
        k + 1, none) := by
    intro rest
    rw [readUleb128_varint _ _ rest hi hl hlen7, hsum, hlen]
  have hbk : b.take (k + 1) = b.take k ++ [b.getD k 0] := by
    conv_lhs => rw [hb]
    rw [List.take_append_eq_append_take, List.take_of_length_le (by omega)]
    simp [hlen]
  refine ⟨?_, ?_, ?_⟩
  · intro s p hs
    exact hR s p (b.drop (k + 1)) (by rw [hs]; exact hb)
  · conv_lhs => rw [hb]
    exact hr _
  · intro c hc
    have hcs : c = b.take k ++ b.getD k 0 :: c.drop (k + 1) := by
      conv_lhs => rw [← List.take_append_drop (k + 1) c, hc, hbk]
      simp
    have e1 := hR c 0 (c.drop (k + 1)) (by simpa using hcs)
    have e2 := hR b 0 (b.drop (k + 1)) (by simpa using hb)
    have e3 : readUleb128 c = readUleb128 b := by
      conv_lhs => rw [hcs]
      conv_rhs => rw [hb]
      rw [hr, hr]
    rw [e1, e2]
    exact ⟨e3, rfl, rfl, rfl⟩

/-- Witness for C9: the bytes `e5 8e 26 ff`, whose first byte with the high bit
clear is at index 2, decode to 624485. -/
theorem uleb128_decode_definition_witness :
    readUleb128 [0xe5, 0x8e, 0x26, 0xff] = (624485, 3, none) ∧
    ReadUleb128 ⟨[0x00, 0xe5, 0x8e, 0x26, 0xff], 1⟩
      = (624485, none, ⟨[0x00, 0xe5, 0x8e, 0x26, 0xff], 4⟩) := by
  have h := uleb128_decode_definition [0xe5, 0x8e, 0x26, 0xff] 2 (by decide) (by decide)
    (by decide) (by norm_num)
  refine ⟨?_, ?_⟩
  · rw [h.2.1]
    decide
  · rw [h.1 [0x00, 0xe5, 0x8e, 0x26, 0xff] 1 (by decide)]
    decide

/-- C10 (varint truncation): `ReadUleb128` returns an error exactly when no
byte remaining at the cursor has its high bit clear (in particular when
nothing remains), and whenever it returns an error the value it returns is 0,
never a partially accumulated one. -/
theorem ReadUleb128_error_iff (r : Reader) :
    ((ReadUleb128 r).2.1 ≠ none ↔ ∀ b ∈ r.remaining, b.val &&& 0x80 ≠ 0) ∧
    (((ReadUleb128 r).2.1 ≠ none ∧ (ReadUleb128 r).1 = 0) ↔
      ∀ b ∈ r.remaining, b.val &&& 0x80 ≠ 0) ∧
    (ReadUleb128 ⟨r.s, r.s.length⟩).2.1 = some TrieError.ulebEOF := by
  have h := ReadUleb128.loop_error r.remaining 0 0 0
  refine ⟨h.1, ⟨fun hh => h.1.1 hh.1, fun hh => ⟨h.1.2 hh, h.2 (h.1.2 hh)⟩⟩, ?_⟩
  simp [ReadUleb128, Reader.remaining, ReadUleb128.loop]

/-! ## Claims on `parseTrie` -/

/-- Full decode of a well-formed trie blob in which the names of the nodes that
have children fit 32000 bytes: with fuel for every node, `parseTrie` returns no
error and a list of entries that matches, entry by entry, a rearrangement
`nodes` of the list of all terminal nodes of the tree (so exactly one entry per
terminal node and none for a non-terminal node): each entry is the entry of its
node, carries the node's flags, and, when the flags are not re-export, is named
by the concatenation of the edge strings on the path from the root to the
node. -/
theorem parseTrie_complete (F : ExportFlagOps) (blob : List Byte) (terminal : Option Terminal)
    (kids : Forest) (L fuel : Nat) (hwf : WellFormed F blob terminal kids)
    (hfit : kids.namesFit [] = true) (hfuel : kids.size + 1 ≤ fuel) :
    ∃ es nodes, parseTrie F blob L fuel = some (.ok es) ∧
      nodes.Perm (rootTerminal terminal ++ kids.terminals []) ∧
      es = nodes.map (fun pt => pt.2.entry F L pt.1) ∧
      List.Forall₂
        (fun e pt => e.Flags = ulebValue pt.2.flags ∧
          (F.ReExport (ulebValue pt.2.flags) = false → e.Name = pt.1))
        es nodes := by
  refine ⟨_, rootTerminal terminal ++ kids.terminalsRev [],
    parseTrie_spec F blob terminal kids L fuel hwf hfit hfuel, ?_, rfl, ?_⟩
  · exact List.Perm.append_left _ (Forest.terminalsRev_perm kids [])
  · apply forall₂_map_self
    intro pt _
    refine ⟨rfl, ?_⟩
    intro h
    simp [Terminal.entry, h]

/-- The three-symbol trie is well-formed and, for every load address `L`,
decodes to exactly the three entries `_foo`, `_bar`, `_foobar` with addresses
`0x1000 + L`, `0x2000 + L`, `0x3000 + L` (in some order). -/
theorem parseTrie_complete_witness :
    WellFormed machOFlags threeSymbolTrie none threeSymbolKids ∧
    ∀ L : Nat, ∃ es, parseTrie machOFlags threeSymbolTrie L 4 = some (.ok es) ∧
      es.Perm [⟨sym_foo, 0, 0, (0x1000 + L) % 2 ^ 64, []⟩,
        ⟨sym_bar, 0, 0, (0x2000 + L) % 2 ^ 64, []⟩,
        ⟨sym_foobar, 0, 0, (0x3000 + L) % 2 ^ 64, []⟩] :=
  ⟨threeSymbolTrie_wf, fun L => by
    obtain ⟨es, nodes, h1, h2, h3, _⟩ := parseTrie_complete machOFlags threeSymbolTrie none
      threeSymbolKids L 4 threeSymbolTrie_wf (by decide) (by decide)
    have h4 : (rootTerminal none ++ threeSymbolKids.terminals []).map
        (fun pt => pt.2.entry machOFlags L pt.1)
        = [⟨sym_foo, 0, 0, (0x1000 + L) % 2 ^ 64, []⟩,
            ⟨sym_foobar, 0, 0, (0x3000 + L) % 2 ^ 64, []⟩,
            ⟨sym_bar, 0, 0, (0x2000 + L) % 2 ^ 64, []⟩] := rfl
    have h5 := List.Perm.map (fun pt => Terminal.entry machOFlags L pt.1 pt.2) h2
    rw [← h3, h4] at h5
    exact ⟨es, h1, h5.trans (List.Perm.cons _ (List.Perm.swap _ _ _))⟩⟩

/-- C5, as stated, fails: on the three-symbol trie, whose root encodes the edge
`_foo` before the edge `_bar`, `parseTrie` returns the entries in the order
`_bar`, `_foo`, `_foobar`, not `_foo`, `_foobar`, `_bar`. -/
theorem parseTrie_order_counterexample :
    parseTrie machOFlags threeSymbolTrie 0 4 =
      some (.ok [⟨sym_bar, 0, 0, 0x2000, []⟩, ⟨sym_foo, 0, 0, 0x1000, []⟩,
        ⟨sym_foobar, 0, 0, 0x3000, []⟩]) ∧
    [sym_bar, sym_foo, sym_foobar] ≠ [sym_foo, sym_foobar, sym_bar] := by
  decide

/-- C5, amended (decode order): on a well-formed trie blob, whenever
`parseTrie` returns entries they are depth-first in pre-order with the
children of every node visited last-encoded first: the entry of the root (if
terminal) followed by `terminalsRev` of its children, where for a child list
`c :: rest` the entries of the later siblings `rest` come first, then the entry
of `c` (if terminal), then those of the descendants of `c`. It does return them,
with fuel for every node, when the names of the nodes that have children fit
32000 bytes. -/
theorem parseTrie_order (F : ExportFlagOps) (blob : List Byte) (terminal : Option Terminal)
    (kids : Forest) (L : Nat) (hwf : WellFormed F blob terminal kids) :
    (∀ (fuel : Nat) (es : List trieEntry), parseTrie F blob L fuel = some (.ok es) →
      es = (rootTerminal terminal ++ kids.terminalsRev []).map (fun pt => pt.2.entry F L pt.1)) ∧
    (kids.namesFit [] = true → ∀ fuel : Nat, kids.size + 1 ≤ fuel →
      parseTrie F blob L fuel = some (.ok
        ((rootTerminal terminal ++ kids.terminalsRev []).map (fun pt => pt.2.entry F L pt.1)))) ∧
    (∀ (pfx edge offset : List Byte) (t : Terminal) (k rest : Forest),
      (Forest.cons edge offset (some t) k rest).terminalsRev pfx
        = rest.terminalsRev pfx ++ ((pfx ++ edge, t) :: k.terminalsRev (pfx ++ edge))) ∧
    (∀ (pfx edge offset : List Byte) (k rest : Forest),
      (Forest.cons edge offset none k rest).terminalsRev pfx
        = rest.terminalsRev pfx ++ k.terminalsRev (pfx ++ edge)) :=
  ⟨fun fuel es h => parseTrie_sound F blob terminal kids L fuel es hwf h,
    fun hfit fuel hfuel => parseTrie_spec F blob terminal kids L fuel hwf hfit hfuel,
    fun _ _ _ _ _ _ => rfl, fun _ _ _ _ _ => rfl⟩

/-- Witness for the amended C5 on the three-symbol trie: the names come out as
`_bar`, `_foo`, `_foobar`. -/
theorem parseTrie_order_witness :
    WellFormed machOFlags threeSymbolTrie none threeSymbolKids ∧
    (rootTerminal none ++ threeSymbolKids.terminalsRev []).map (fun pt => pt.1)
      = [sym_bar, sym_foo, sym_foobar] ∧
    parseTrie machOFlags threeSymbolTrie 0 4 = some (.ok
      ((rootTerminal none ++ threeSymbolKids.terminalsRev []).map
        (fun pt => pt.2.entry machOFlags 0 pt.1))) :=
  ⟨threeSymbolTrie_wf, by decide,
    (parseTrie_order machOFlags threeSymbolTrie none threeSymbolKids 0 threeSymbolTrie_wf).2.1
      (by decide) 4 (by decide)⟩

/-- Re-export entries of a well-formed trie blob: whenever `parseTrie` returns
entries, the entry of every terminal node whose flags have `ReExport` set, with
ordinal `o`, re-export name `n` and stored value `v`, has the name
`prefix ++ " (" ++ n ++ ")"` when `n` is not empty, has `Other = o` when
`StubAndResolver` is not set as well, and has the address `v` when the flags
are neither regular nor thread-local and `(v + L) mod 2 ^ 64` when they are. It
does return entries, with fuel for every node, when the names of the nodes
that have children fit 32000 bytes. -/
theorem parseTrie_reExport_wellFormed (F : ExportFlagOps) (blob : List Byte)
    (terminal : Option Terminal) (kids : Forest) (L : Nat) (hwf : WellFormed F blob terminal kids) :
    (∀ (fuel : Nat) (es : List trieEntry), parseTrie F blob L fuel = some (.ok es) →
      List.Forall₂
        (fun e pt =>
          F.ReExport (ulebValue pt.2.flags) = true →
            (pt.2.name ≠ [] → e.Name = pt.1 ++ openParen ++ pt.2.name ++ closeParen) ∧
            (F.StubAndResolver (ulebValue pt.2.flags) = false →
              e.Other = ulebValue pt.2.ordinal) ∧
            ((F.Regular (ulebValue pt.2.flags) || F.ThreadLocal (ulebValue pt.2.flags)) = false →
              e.Address = ulebValue pt.2.value) ∧
            ((F.Regular (ulebValue pt.2.flags) || F.ThreadLocal (ulebValue pt.2.flags)) = true →
              e.Address = (ulebValue pt.2.value + L) % 2 ^ 64))
        es (rootTerminal terminal ++ kids.terminalsRev [])) ∧
    (kids.namesFit [] = true → ∀ fuel : Nat, kids.size + 1 ≤ fuel →
      ∃ es, parseTrie F blob L fuel = some (.ok es)) := by
  refine ⟨?_, fun hfit fuel hfuel =>
    ⟨_, parseTrie_spec F blob terminal kids L fuel hwf hfit hfuel⟩⟩
  intro fuel es h
  rw [parseTrie_sound F blob terminal kids L fuel es hwf h]
  apply forall₂_map_self
  intro pt _ hre
  refine ⟨?_, ?_, ?_, ?_⟩
  · intro hn
    simp [Terminal.entry, hre, hn]
  · intro hs
    simp [Terminal.entry, hre, hs]
  · intro hr
    simp only [Terminal.entry, hr]
    simp
  · intro hr
    simp only [Terminal.entry, hr]
    simp

/-- The re-export entry of `reExportTrie` with flags `0x0a` (re-export,
absolute kind), ordinal 2 and name `_original`: it is named `_a (_original)`,
has `Other = 2` and the stored address `0x10`, whatever the load address. -/
theorem parseTrie_reExport_wellFormed_example :
    WellFormed machOFlags (reExportTrie 0x0a) none (reExportKids 0x0a) ∧
    parseTrie machOFlags (reExportTrie 0x0a) 0x1000 2 =
      some (.ok [⟨sym_a ++ openParen ++ sym_original ++ closeParen, 0x0a, 2, 0x10, []⟩]) ∧
    List.Forall₂
      (fun (e : trieEntry) (pt : List Byte × Terminal) =>
        machOFlags.ReExport (ulebValue pt.2.flags) = true →
          (pt.2.name ≠ [] → e.Name = pt.1 ++ openParen ++ pt.2.name ++ closeParen) ∧
          (machOFlags.StubAndResolver (ulebValue pt.2.flags) = false →
            e.Other = ulebValue pt.2.ordinal) ∧
          ((machOFlags.Regular (ulebValue pt.2.flags)
              || machOFlags.ThreadLocal (ulebValue pt.2.flags)) = false →
            e.Address = ulebValue pt.2.value) ∧
          ((machOFlags.Regular (ulebValue pt.2.flags)
              || machOFlags.ThreadLocal (ulebValue pt.2.flags)) = true →
            e.Address = (ulebValue pt.2.value + 0x1000) % 2 ^ 64))
      [⟨sym_a ++ openParen ++ sym_original ++ closeParen, 0x0a, 2, 0x10, []⟩]
      (rootTerminal none ++ (reExportKids 0x0a).terminalsRev []) ∧
    ∃ es, parseTrie machOFlags (reExportTrie 0x0a) 0x1000 2 = some (.ok es) :=
  have h := parseTrie_reExport_wellFormed machOFlags (reExportTrie 0x0a) none
    (reExportKids 0x0a) 0x1000 (reExportTrie_wf 0x0a (by decide))
  ⟨reExportTrie_wf 0x0a (by decide), by decide,
    h.1 2 [⟨sym_a ++ openParen ++ sym_original ++ closeParen, 0x0a, 2, 0x10, []⟩] (by decide),
    h.2 (by decide) 2 (by decide)⟩

/-- Rebasing on a well-formed trie blob: whenever `parseTrie` returns entries,
the entry of every terminal node with stored value `v` has the address
`(v + L) mod 2 ^ 64` when its flags are regular or thread-local and `v`
otherwise; and the entries returned for the same blob under another load
address have the same `Name`, `Flags`, `Other` and `FoundInDylib`. It does
return entries, with fuel for every node, when the names of the nodes that have
children fit 32000 bytes. -/
theorem parseTrie_rebase_wellFormed (F : ExportFlagOps) (blob : List Byte)
    (terminal : Option Terminal) (kids : Forest) (L : Nat) (hwf : WellFormed F blob terminal kids) :
    (∀ (fuel : Nat) (es : List trieEntry), parseTrie F blob L fuel = some (.ok es) →
      List.Forall₂
        (fun e pt =>
          e.Address =
            if (F.Regular (ulebValue pt.2.flags) || F.ThreadLocal (ulebValue pt.2.flags)) = true
            then (ulebValue pt.2.value + L) % 2 ^ 64
            else ulebValue pt.2.value)
        es (rootTerminal terminal ++ kids.terminalsRev []) ∧
      ∀ (L2 fuel2 : Nat) (es2 : List trieEntry),
        parseTrie F blob L2 fuel2 = some (.ok es2) →
        List.Forall₂
          (fun e e2 => e.Name = e2.Name ∧ e.Flags = e2.Flags ∧ e.Other = e2.Other ∧
            e.FoundInDylib = e2.FoundInDylib)
          es es2) ∧
    (kids.namesFit [] = true → ∀ fuel : Nat, kids.size + 1 ≤ fuel →
      ∃ es, parseTrie F blob L fuel = some (.ok es)) := by
  refine ⟨?_, fun hfit fuel hfuel =>
    ⟨_, parseTrie_spec F blob terminal kids L fuel hwf hfit hfuel⟩⟩
  intro fuel es h
  rw [parseTrie_sound F blob terminal kids L fuel es hwf h]
  refine ⟨?_, ?_⟩
  · apply forall₂_map_self
    intro pt _
    rfl
  · intro L2 fuel2 es2 h2
    rw [parseTrie_sound F blob terminal kids L2 fuel2 es2 hwf h2]
    apply forall₂_map_map
    intro pt _
    exact ⟨rfl, rfl, rfl, rfl⟩

/-- The three-symbol trie decoded at load address `0x100000000`. -/
theorem parseTrie_rebase_wellFormed_example :
    WellFormed machOFlags threeSymbolTrie none threeSymbolKids ∧
    parseTrie machOFlags threeSymbolTrie 0x100000000 4 =
      some (.ok [⟨sym_bar, 0, 0, 0x100002000, []⟩, ⟨sym_foo, 0, 0, 0x100001000, []⟩,
        ⟨sym_foobar, 0, 0, 0x100003000, []⟩]) ∧
    List.Forall₂
      (fun (e : trieEntry) (pt : List Byte × Terminal) =>
        e.Address =
          if (machOFlags.Regular (ulebValue pt.2.flags)
              || machOFlags.ThreadLocal (ulebValue pt.2.flags)) = true
          then (ulebValue pt.2.value + 0x100000000) % 2 ^ 64
          else ulebValue pt.2.value)
      [⟨sym_bar, 0, 0, 0x100002000, []⟩, ⟨sym_foo, 0, 0, 0x100001000, []⟩,
        ⟨sym_foobar, 0, 0, 0x100003000, []⟩]
      (rootTerminal none ++ threeSymbolKids.terminalsRev []) ∧
    ∃ es, parseTrie machOFlags threeSymbolTrie 0x100000000 4 = some (.ok es) :=
  have h := parseTrie_rebase_wellFormed machOFlags threeSymbolTrie none threeSymbolKids
    0x100000000 threeSymbolTrie_wf
  ⟨threeSymbolTrie_wf, by decide,
    (h.1 4 [⟨sym_bar, 0, 0, 0x100002000, []⟩, ⟨sym_foo, 0, 0, 0x100001000, []⟩,
      ⟨sym_foobar, 0, 0, 0x100003000, []⟩] (by decide)).1,
    h.2 (by decide) 4 (by decide)⟩

/-- The auxiliary value on a well-formed trie blob: whenever `parseTrie`
returns entries, the entry of every terminal node whose flags have
`StubAndResolver` set, with stored value `v` and resolver offset `r`, has
`Other = r` and an address that is `v` or `(v + L) mod 2 ^ 64`; the entry of
every terminal node with neither `ReExport` nor `StubAndResolver` set has
`Other = 0`. It does return entries, with fuel for every node, when the names
of the nodes that have children fit 32000 bytes. -/
theorem parseTrie_other_wellFormed (F : ExportFlagOps) (blob : List Byte)
    (terminal : Option Terminal) (kids : Forest) (L : Nat) (hwf : WellFormed F blob terminal kids) :
    (∀ (fuel : Nat) (es : List trieEntry), parseTrie F blob L fuel = some (.ok es) →
      List.Forall₂
        (fun e pt =>
          (F.StubAndResolver (ulebValue pt.2.flags) = true →
            e.Other = ulebValue pt.2.resolver ∧
            e.Address =
              if (F.Regular (ulebValue pt.2.flags) || F.ThreadLocal (ulebValue pt.2.flags)) = true
              then (ulebValue pt.2.value + L) % 2 ^ 64
              else ulebValue pt.2.value) ∧
          (F.ReExport (ulebValue pt.2.flags) = false →
            F.StubAndResolver (ulebValue pt.2.flags) = false → e.Other = 0))
        es (rootTerminal terminal ++ kids.terminalsRev [])) ∧
    (kids.namesFit [] = true → ∀ fuel : Nat, kids.size + 1 ≤ fuel →
      ∃ es, parseTrie F blob L fuel = some (.ok es)) := by
  refine ⟨?_, fun hfit fuel hfuel =>
    ⟨_, parseTrie_spec F blob terminal kids L fuel hwf hfit hfuel⟩⟩
  intro fuel es h
  rw [parseTrie_sound F blob terminal kids L fuel es hwf h]
  apply forall₂_map_self
  intro pt _
  refine ⟨?_, ?_⟩
  · intro hs
    refine ⟨?_, rfl⟩
    simp [Terminal.entry, hs]
  · intro hr hs
    simp [Terminal.entry, hr, hs]

/-- The entry of `stubTrie`: with flags `0x10` (stub-and-resolver, regular
kind), stored value `0x20` and resolver offset `0x30`, under load address
`0x1000` it has `Other = 0x30` and `Address = 0x1020`. -/
theorem parseTrie_other_wellFormed_example :
    WellFormed machOFlags stubTrie none stubKids ∧
    parseTrie machOFlags stubTrie 0x1000 2 = some (.ok [⟨sym_a, 0x10, 0x30, 0x1020, []⟩]) ∧
    List.Forall₂
      (fun (e : trieEntry) (pt : List Byte × Terminal) =>
        (machOFlags.StubAndResolver (ulebValue pt.2.flags) = true →
          e.Other = ulebValue pt.2.resolver ∧
          e.Address =
            if (machOFlags.Regular (ulebValue pt.2.flags)
                || machOFlags.ThreadLocal (ulebValue pt.2.flags)) = true
            then (ulebValue pt.2.value + 0x1000) % 2 ^ 64
            else ulebValue pt.2.value) ∧
        (machOFlags.ReExport (ulebValue pt.2.flags) = false →
          machOFlags.StubAndResolver (ulebValue pt.2.flags) = false → e.Other = 0))
      [⟨sym_a, 0x10, 0x30, 0x1020, []⟩]
      (rootTerminal none ++ stubKids.terminalsRev []) ∧
    ∃ es, parseTrie machOFlags stubTrie 0x1000 2 = some (.ok es) :=
  have h := parseTrie_other_wellFormed machOFlags stubTrie none stubKids 0x1000 stubTrie_wf
  ⟨stubTrie_wf, by decide, h.1 2 [⟨sym_a, 0x10, 0x30, 0x1020, []⟩] (by decide),
    h.2 (by decide) 2 (by decide)⟩

set_option maxRecDepth 1000000 in
/-- C3 (lookup correctness) evaluated. On the three-symbol trie, looking up
`_bar` returns offset 25, the terminal payload of its node, where the terminal
block decodes address `0x2000 + L`. Looking up `_foobar`, which `parseTrie`
reports, returns the error "failed to read trie terminalSize": its node lies at
offset 29 of the 34 bytes, and `walkTrie` reads 8 bytes at a node offset.
Looking up the 256-byte symbol of `longTrie`, which `parseTrie` reports,
returns `-1, "symbol not in trie"`: the `uint8` match index wraps to 0. -/
theorem walkTrie_lookup_eval :
    walkTrie threeSymbolTrie sym_bar 4 = some (.ret 25 none) ∧
    parseTrie.terminal machOFlags 0x100000000 ⟨24, sym_bar⟩ ⟨threeSymbolTrie, 25⟩
      = .ok (⟨sym_bar, 0, 0, 0x100002000, []⟩, ⟨threeSymbolTrie, 28⟩) ∧
    parseTrie machOFlags threeSymbolTrie 0 4 =
      some (.ok [⟨sym_bar, 0, 0, 0x2000, []⟩, ⟨sym_foo, 0, 0, 0x1000, []⟩,
        ⟨sym_foobar, 0, 0, 0x3000, []⟩]) ∧
    readAt8 threeSymbolTrie 29 = none ∧
    walkTrie threeSymbolTrie sym_foobar 4 = some (.ret (-1) (some .readTerminalSize)) ∧
    parseTrie machOFlags longTrie 0 4 = some (.ok [⟨longSym, 0, 0, 0x1000, []⟩]) ∧
    walkTrie longTrie longSym 4 = some (.ret (-1) (some .symbolNotInTrie)) := by
  decide

/-- C4 (not-found) evaluated on the three-symbol trie. The child count of the
root is `data[1] = 2`, but the sibling scan runs `data[2] = 0x5f = 95` times.
With 2 iterations the scan of `_missing` would fall out of the loop with no
matching edge; with 95 it runs on into the following nodes and returns
`-1, "symbol not in trie"` from the guard `strIndex == searchStrIndex`. Looking
up `_fo`, a proper prefix of the edge `_foo`, panics on `symbol[searchStrIndex]`. -/
theorem walkTrie_missing_eval :
    threeSymbolTrie[1]? = some 2 ∧ threeSymbolTrie[2]? = some 0x5f ∧
    walkTrie.siblings threeSymbolTrie sym_missing 0 2 2 = .next 14 0 0 ∧
    walkTrie.siblings threeSymbolTrie sym_missing 0 0x5f 2
      = .done (.ret (-1) (some .symbolNotInTrie)) ∧
    walkTrie threeSymbolTrie sym_missing 4 = some (.ret (-1) (some .symbolNotInTrie)) ∧
    walkTrie threeSymbolTrie [0x5f, 0x66, 0x6f] 4 = some .panic := by
  decide

/-! ## Further claims on the varint decoders -/

theorem ulebSum_append (a b : List Byte) :
    ulebSum (a ++ b) = ulebSum a + 2 ^ (7 * a.length) * ulebSum b := by
  induction a with
  | nil => simp [ulebSum]
  | cons x a ih =>
    rw [List.cons_append, ulebSum, ulebSum, ih, List.length_cons,
      show 7 * (a.length + 1) = 7 + 7 * a.length by ring, Nat.pow_add]
    ring

/-- The loop of `ReadUleb128` over a run `a` of bytes with the high bit set: it
reaches the bytes behind the run with the shift grown by 7 for every byte. -/
theorem ReadUleb128_loop_run (a tail : List Byte) (ha : ∀ b ∈ a, 128 ≤ b.val) :
    ∀ (S j n : Nat), S < 2 ^ (7 * j) → 7 * (j + a.length) < 2 ^ 64 →
      ReadUleb128.loop (a ++ tail) (S % 2 ^ 64) (7 * j) n
        = ReadUleb128.loop tail ((S + 2 ^ (7 * j) * ulebSum a) % 2 ^ 64)
            (7 * (j + a.length)) (n + a.length) := by
  induction a with
  | nil =>
    intro S j n _ _
    simp [ulebSum]
  | cons b a ih =>
    intro S j n hS hj
    have hb : ¬ (b.val &&& 0x80 = 0) := by
      rw [byte_and_high]
      have := ha b (by simp)
      omega
    have hS2 := sum_step_lt S (b.val &&& 0x7f) j hS (byte_and_low_lt b)
    simp only [List.length_cons] at hj
    have hshift : (7 * j + 7) % 2 ^ 64 = 7 * (j + 1) := by
      rw [Nat.mod_eq_of_lt (by omega)]
      ring
    rw [List.cons_append, ReadUleb128.loop]
    simp only [hb, if_false]
    rw [acc_step S _ _ hS, hshift,
      ih (fun c hc => ha c (by simp [hc])) _ (j + 1) (n + 1) hS2 (by omega)]
    have h1 : 2 ^ (7 * (j + 1)) = 2 ^ (7 * j) * 2 ^ 7 := by
      rw [show 7 * (j + 1) = 7 * j + 7 by ring, Nat.pow_add]
    rw [ulebSum, h1, List.length_cons]
    have e1 : S + 2 ^ (7 * j) * (b.val &&& 0x7f) + 2 ^ (7 * j) * 2 ^ 7 * ulebSum a
        = S + 2 ^ (7 * j) * ((b.val &&& 0x7f) + 2 ^ 7 * ulebSum a) := by ring
    have e2 : j + 1 + a.length = j + (a.length + 1) := by omega
    have e3 : n + 1 + a.length = n + (a.length + 1) := by omega
    rw [e1, e2, e3]

/-- C17, as stated, fails: on eleven bytes with the high bit set followed by
the byte 1, both decoders return the value 0 and no error. -/
theorem uleb128_overlong_counterexample :
    ReadUleb128 ⟨overlongVarint, 0⟩ = (0, none, ⟨overlongVarint, 12⟩) ∧
    readUleb128 overlongVarint = (0, 12, none) := by
  decide

/-- C17, amended (over-length varints are accepted): on an input that starts
with more than 10 bytes `init` having the high bit set, followed by a byte
`last` with the high bit clear, `ReadUleb128` and `readUleb128` return no error
and the value of the first ten bytes (the later bytes contribute nothing modulo
`2 ^ 64`), having read all of `init` and `last`; the loop reaches the eleventh
byte with shift 70, there being no cap on the shift. -/
theorem uleb128_overlong (init : List Byte) (last : Byte) (rest : List Byte)
    (hinit : ∀ b ∈ init, 128 ≤ b.val) (hlast : last.val < 128) (hlong : 10 < init.length)
    (hshift : 7 * init.length < 2 ^ 64) :
    ReadUleb128 ⟨init ++ last :: rest, 0⟩
      = (ulebSum (init.take 10) % 2 ^ 64, none, ⟨init ++ last :: rest, init.length + 1⟩) ∧
    readUleb128 (init ++ last :: rest)
      = (ulebSum (init.take 10) % 2 ^ 64, init.length + 1, none) ∧
    ReadUleb128.loop (init ++ last :: rest) 0 0 0
      = ReadUleb128.loop (init.drop 10 ++ last :: rest) (ulebSum (init.take 10) % 2 ^ 64) 70 10 := by
  have hval : ulebSum (init ++ [last]) % 2 ^ 64 = ulebSum (init.take 10) % 2 ^ 64 := by
    have hsplit : init ++ [last] = init.take 10 ++ (init.drop 10 ++ [last]) := by
      rw [← List.append_assoc, List.take_append_drop]
    have hl : (init.take 10).length = 10 := by
      rw [List.length_take]
      omega
    rw [hsplit, ulebSum_append, hl, show 7 * 10 = 64 + 6 by norm_num, Nat.pow_add,
      Nat.mul_assoc, Nat.add_mul_mod_self_left]
  refine ⟨?_, ?_, ?_⟩
  · rw [ReadUleb128_varint init last rest hinit hlast hshift _ 0 (by simp), hval]
    simp
  · rw [readUleb128_varint init last rest hinit hlast hshift, hval]
  · have hl : (init.take 10).length = 10 := by
      rw [List.length_take]
      omega
    have h := ReadUleb128_loop_run (init.take 10) (init.drop 10 ++ last :: rest)
      (fun b hb => hinit b (List.mem_of_mem_take hb)) 0 0 0 (by simp) (by rw [hl]; norm_num)
    rw [← List.append_assoc, List.take_append_drop, hl] at h
    simpa using h

/-- Witness for the amended C17: twelve bytes `81` and then `02` decode to the
value of the first ten bytes. -/
theorem uleb128_overlong_witness :
    ReadUleb128 ⟨List.replicate 12 0x81 ++ 0x02 :: [], 0⟩
      = (ulebSum ((List.replicate 12 0x81).take 10) % 2 ^ 64, none,
          ⟨List.replicate 12 0x81 ++ 0x02 :: [], (List.replicate 12 (0x81 : Byte)).length + 1⟩) ∧
    ulebSum ((List.replicate 12 (0x81 : Byte)).take 10) % 2 ^ 64 = 0x8102040810204081 :=
  ⟨(uleb128_overlong (List.replicate 12 0x81) 0x02 []
      (fun b hb => by rw [List.eq_of_mem_replicate hb]; decide) (by decide)
      (by simp) (by simp)).1, by decide⟩

/-- C20, as stated, fails: on the empty input `readUleb128` returns
`(0, 0, nil)` and `ReadUleb128` returns an error. -/
theorem uleb128_decoders_counterexample :
    readUleb128 [] = (0, 0, none) ∧
    ReadUleb128 ⟨[], 0⟩ = (0, some TrieError.ulebEOF, ⟨[], 0⟩) := by
  decide

/-- C20, amended (the two varint decoders agree on non-empty input): for every
non-empty byte sequence, `readUleb128` on a buffer holding it and `ReadUleb128`
on a reader whose remaining bytes are the sequence return the same error (so
they agree on success versus failure) and the same value, and on success the
length `readUleb128` reports is the number of bytes `ReadUleb128` consumed. -/
theorem uleb128_decoders_agree (bs s : List Byte) (p : Nat) (hne : bs ≠ [])
    (hs : s.drop p = bs) :
    (readUleb128 bs).2.2 = (ReadUleb128 ⟨s, p⟩).2.1 ∧
    (readUleb128 bs).1 = (ReadUleb128 ⟨s, p⟩).1 ∧
    ((readUleb128 bs).2.2 = none →
      (ReadUleb128 ⟨s, p⟩).2.2.i = p + (readUleb128 bs).2.1) := by
  have hlen : ¬ bs.length = 0 := by
    intro h
    exact hne (List.length_eq_zero.1 h)
  have herr := (ReadUleb128.loop_error bs 0 0 0).2
  simp only [readUleb128, if_neg hlen, readUleb128.loop_eq, ReadUleb128, Reader.remaining, hs]
  generalize ReadUleb128.loop bs 0 0 0 = out at herr
  obtain ⟨v, e, m⟩ := out
  cases e with
  | none => simp
  | some e =>
    have := herr (by simp)
    simp at this
    simp [this]

/-- Witness for the amended C20 on the bytes `e5 8e 26`. -/
theorem uleb128_decoders_agree_witness :
    ([0xe5, 0x8e, 0x26] : List Byte) ≠ [] ∧
    readUleb128 [0xe5, 0x8e, 0x26] = (624485, 3, none) ∧
    ReadUleb128 ⟨[0xe5, 0x8e, 0x26], 0⟩ = (624485, none, ⟨[0xe5, 0x8e, 0x26], 3⟩) ∧
    (readUleb128 [0xe5, 0x8e, 0x26]).2.2 = (ReadUleb128 ⟨[0xe5, 0x8e, 0x26], 0⟩).2.1 :=
  ⟨by decide, by decide, by decide,
    (uleb128_decoders_agree [0xe5, 0x8e, 0x26] [0xe5, 0x8e, 0x26] 0 (by decide) (by decide)).1⟩

/-! ## Further claims on `parseTrie` -/

theorem cycleTrie_step (F : ExportFlagOps) (L fuel q : Nat) :
    parseTrie.loop F L (fuel + 1) [⟨0, []⟩] [] ⟨cycleTrie, q⟩
      = parseTrie.loop F L fuel [⟨0, []⟩] [] ⟨cycleTrie, 4⟩ := by
  have e1 : ReadUleb128 ⟨cycleTrie, 0⟩ = (0, none, ⟨cycleTrie, 1⟩) := by decide
  have e2 : Reader.ReadByte ⟨cycleTrie, 1⟩ = (some 1, ⟨cycleTrie, 2⟩) := by decide
  have e3 : parseTrie.children ⟨0, []⟩ 1 ⟨cycleTrie, 2⟩ []
      = .ok ([⟨0, []⟩], ⟨cycleTrie, 4⟩) := by decide
  rw [parseTrie.loop]
  simp only []
  rw [seek_small cycleTrie q 0 (by norm_num), e1]
  simp only [ne_eq, not_true_eq_false, if_false]
  rw [show (0 + 0 + 1) % 2 ^ 64 = 1 by norm_num, seek_small cycleTrie 1 1 (by norm_num), e2]
  simp only []
  rw [show ((1 : Byte) : Nat) = 1 from rfl, e3]

/-- C13 (decode termination) evaluated on `cycleTrie`, whose root has itself as
child (child offset 0, empty edge): every iteration of the outer loop of
`parseTrie` leaves the work list as it found it, so whatever the number of
iterations allowed, `parseTrie` has not returned: it neither rejects the blob
nor ends. -/
theorem parseTrie_cycle_diverges :
    ∀ (F : ExportFlagOps) (L fuel : Nat), parseTrie F cycleTrie L fuel = none := by
  intro F L fuel
  have h : ∀ q, parseTrie.loop F L fuel [⟨0, []⟩] [] ⟨cycleTrie, q⟩ = none := by
    induction fuel with
    | zero => intro q; rfl
    | succ fuel ih =>
      intro q
      rw [cycleTrie_step, ih]
  exact h 0

theorem growTrie_step (F : ExportFlagOps) (L fuel q : Nat) (p : List Byte)
    (hp : p.length ≤ 32000) :
    parseTrie.loop F L (fuel + 1) [⟨0, p⟩] [] ⟨growTrie, q⟩
      = parseTrie.loop F L fuel [⟨0, p ++ [0x61]⟩] [] ⟨growTrie, 5⟩ := by
  have e1 : ReadUleb128 ⟨growTrie, 0⟩ = (0, none, ⟨growTrie, 1⟩) := by decide
  have e2 : Reader.ReadByte ⟨growTrie, 1⟩ = (some 1, ⟨growTrie, 2⟩) := by decide
  have e4 : ReadUleb128 ⟨growTrie, 4⟩ = (0, none, ⟨growTrie, 5⟩) := by decide
  have ec : readCString (Reader.remaining ⟨growTrie, 2⟩) p 0 = (p ++ [0x61], 2) := by
    show readCString [0x61, 0x00, 0x00] p 0 = _
    simp [readCString]
  have e3 : parseTrie.children ⟨0, p⟩ 1 ⟨growTrie, 2⟩ []
      = .ok ([⟨0, p ++ [0x61]⟩], ⟨growTrie, 5⟩) := by
    rw [parseTrie.children, if_neg (by simpa using hp)]
    simp only [ec]
    rw [e4]
    rfl
  rw [parseTrie.loop]
  simp only []
  rw [seek_small growTrie q 0 (by norm_num), e1]
  simp only [ne_eq, not_true_eq_false, if_false]
  rw [show (0 + 0 + 1) % 2 ^ 64 = 1 by norm_num, seek_small growTrie 1 1 (by norm_num), e2]
  simp only []
  rw [show ((1 : Byte) : Nat) = 1 from rfl, e3]

theorem growTrie_panic (F : ExportFlagOps) (L fuel q : Nat) (p : List Byte)
    (hp : 32000 < p.length) :
    parseTrie.loop F L (fuel + 1) [⟨0, p⟩] [] ⟨growTrie, q⟩ = some (.error .panic) := by
  have e1 : ReadUleb128 ⟨growTrie, 0⟩ = (0, none, ⟨growTrie, 1⟩) := by decide
  have e2 : Reader.ReadByte ⟨growTrie, 1⟩ = (some 1, ⟨growTrie, 2⟩) := by decide
  have e3 : parseTrie.children ⟨0, p⟩ 1 ⟨growTrie, 2⟩ [] = .error .panic := by
    rw [parseTrie.children, if_pos (by simpa using hp)]
  rw [parseTrie.loop]
  simp only []
  rw [seek_small growTrie q 0 (by norm_num), e1]
  simp only [ne_eq, not_true_eq_false, if_false]
  rw [show (0 + 0 + 1) % 2 ^ 64 = 1 by norm_num, seek_small growTrie 1 1 (by norm_num), e2]
  simp only []
  rw [show ((1 : Byte) : Nat) = 1 from rfl, e3]

theorem growTrie_run (F : ExportFlagOps) (L : Nat) :
    ∀ (k : Nat) (p : List Byte) (q fuel : Nat), p.length + k = 32001 → k + 1 ≤ fuel →
      parseTrie.loop F L fuel [⟨0, p⟩] [] ⟨growTrie, q⟩ = some (.error .panic) := by
  intro k
  induction k with
  | zero =>
    intro p q fuel hp hf
    obtain ⟨f, rfl⟩ := Nat.exists_eq_add_of_le hf
    rw [show 0 + 1 + f = f + 1 by omega]
    exact growTrie_panic F L f q p (by omega)
  | succ k ih =>
    intro p q fuel hp hf
    obtain ⟨f, rfl⟩ := Nat.exists_eq_add_of_le hf
    rw [show k + 1 + 1 + f = (k + 1 + f) + 1 by omega, growTrie_step F L _ q p (by omega)]
    exact ih _ 5 _ (by simp; omega) (by omega)

/-- C12 (decode totality) evaluated. The child loop of `parseTrie` panics
(`make([]byte, len, 32000)` with `len > 32000`) whenever it runs for a node
whose name is longer than 32000 bytes, instead of pushing the child. On
`growTrie`, whose root is its own child through the edge `a`, the name grows by
one byte per visit and `parseTrie` panics at the 32002nd visit. -/
theorem parseTrie_long_name_panics :
    (∀ (tNode : trieNode) (i : Nat) (r : Reader) (nodes : List trieNode),
      32000 < tNode.SymBytes.length →
        parseTrie.children tNode (i + 1) r nodes = .error .panic) ∧
    (∀ (F : ExportFlagOps) (L fuel : Nat), 32002 ≤ fuel →
      parseTrie F growTrie L fuel = some (.error .panic)) := by
  refine ⟨?_, ?_⟩
  · intro tNode i r nodes h
    rw [parseTrie.children, if_pos h]
  · intro F L fuel hf
    exact growTrie_run F L 32001 [] 0 fuel (by simp) (by omega)

theorem nodeAt_drop (F : ExportFlagOps) (blob : List Byte) (off : Nat)
    (terminal : Option Terminal) (kids : Forest) :
    nodeAt F blob off terminal kids = nodeAt F (blob.drop off) 0 terminal kids := by
  simp [nodeAt]

theorem bigHead_length : bigHead.length = 32007 := by
  rw [bigHead, List.length_cons, List.length_cons, List.length_append, bigEdge,
    List.length_replicate]
  rfl

theorem bigTrie_drop (k : Nat) : bigTrie.drop (32007 + k) = bigTail.drop k := by
  rw [← List.drop_drop, bigTrie, List.drop_left' bigHead_length]

theorem noNul_bigEdge : noNul bigEdge = true := by
  rw [noNul, List.all_eq_true]
  intro b hb
  rw [List.eq_of_mem_replicate hb]
  decide

theorem bigTrie_length : bigTrie.length = 32019 := by
  rw [bigTrie, List.length_append, bigHead_length]
  rfl

theorem bigTrie_root : nodeAt machOFlags bigTrie 0 none bigKids = true := by
  have hroot : nodeBytes machOFlags none bigKids = bigHead := by
    simp only [nodeBytes, payloadBytes, bigKids, Forest.length, Forest.edgeBytes, bigHead,
      List.length_nil, List.nil_append, List.append_nil]
    rfl
  have hk : bigKids.length = 1 := rfl
  simp only [nodeAt, payloadBytes, List.length_nil, hroot, List.drop_zero, bigTrie,
    List.take_left' rfl, hk]
  decide

theorem bigTrie_kids : bigKids.wf machOFlags bigTrie = true := by
  have h7 : ulebValue [0x87, 0xfa, 0x01] = 32007 + 0 := by decide
  have h14 : ulebValue [0x8e, 0xfa, 0x01] = 32007 + 7 := by decide
  have hA : nodeAt machOFlags bigTrie (32007 + 0) none bigInner = true := by
    rw [nodeAt_drop, bigTrie_drop]
    decide
  have hB : nodeAt machOFlags bigTrie (32007 + 7) (some (regularTerminal 0x80 0x20)) .nil
      = true := by
    rw [nodeAt_drop, bigTrie_drop]
    decide
  have hI : bigInner.wf machOFlags bigTrie = true := by
    simp only [bigInner, Forest.wf, h14, hB, Bool.and_true]
    decide
  rw [bigKids, Forest.wf, noNul_bigEdge, h7, hA, hI]
  decide

theorem bigTrie_wf : WellFormed machOFlags bigTrie none bigKids :=
  ⟨by rw [bigTrie_length]; norm_num, bigTrie_root, bigTrie_kids⟩

/-- C2 (full-decode completeness) evaluated on `bigTrie`, the encoding of the
tree with the one symbol made of 32001 letters `a` and one `b`: the blob is
well-formed, all its terminal sizes are one byte and every child offset is the
start of an encoded node, and `parseTrie` panics in
`make([]byte, 32001, 32000)` when it expands the node named by the 32001
letters, instead of returning the entry of the symbol. -/
theorem parseTrie_bigTrie_panics :
    WellFormed machOFlags bigTrie none bigKids ∧
    bigKids.terminals [] = [(bigEdge ++ [0x62], regularTerminal 0x80 0x20)] ∧
    (∀ (L fuel : Nat), 2 ≤ fuel → parseTrie machOFlags bigTrie L fuel = some (.error .panic)) := by
  refine ⟨bigTrie_wf, rfl, ?_⟩
  intro L fuel hf
  obtain ⟨f, rfl⟩ := Nat.exists_eq_add_of_le hf
  obtain ⟨hlen, hnode, hkids⟩ := bigTrie_wf
  obtain ⟨p, rest, hs, hstep⟩ := parseTrie_loop_node machOFlags L bigTrie hlen (1 + f)
    (rootNode none bigKids) [] [] 0 hnode
  obtain ⟨q, hch⟩ := parseTrie.children_spec machOFlags bigTrie hlen (rootNode none bigKids).toNode
    bigKids rest p [] hkids (fun _ => by simp [rootNode, PendingNode.toNode]) hs
  have hA : nodeAt machOFlags bigTrie (ulebValue [0x87, 0xfa, 0x01]) none bigInner = true := by
    simp only [bigKids, Forest.wf, Bool.and_eq_true] at hkids
    exact hkids.1.1.2
  rw [parseTrie, show 2 + f = (1 + f) + 1 by omega]
  rw [show ({ Offset := 0, SymBytes := [] } : trieNode) = (rootNode none bigKids).toNode from rfl,
    hstep]
  rw [List.map_nil] at hch
  rw [show (rootNode none bigKids).kids = bigKids from rfl, hch]
  simp only []
  rw [show 1 + f = f + 1 by omega]
  exact parseTrie_loop_panic machOFlags L bigTrie hlen f
    ⟨bigEdge, ulebValue [0x87, 0xfa, 0x01], none, bigInner⟩ [] _ q hA (by decide)
    (by
      show 32000 < bigEdge.length
      rw [bigEdge, List.length_replicate]
      norm_num)

theorem ReadUleb128_at_end (s : List Byte) (c : Nat) (h : s.length ≤ c) :
    ReadUleb128 ⟨s, c⟩ = (0, some .ulebEOF, ⟨s, c⟩) := by
  simp [ReadUleb128, Reader.remaining, List.drop_eq_nil_of_le h, ReadUleb128.loop]

theorem ReadByte_at_end (s : List Byte) (c : Nat) (h : s.length ≤ c) :
    Reader.ReadByte ⟨s, c⟩ = (none, ⟨s, c⟩) := by
  simp [Reader.ReadByte, Reader.remaining, List.drop_eq_nil_of_le h]

/-- C14 (out-of-range child offsets) evaluated. A pending node whose offset `c`
is at or beyond the end of the blob and below `2 ^ 63` makes `parseTrie` return
an error. On `farTrie`, whose child offset is `2 ^ 63`, the conversion to
`int64` is negative, `Seek` fails, its error is ignored, and `parseTrie` decodes
the bytes at the cursor instead: it returns an entry and no error. On
`edgeTrie`, where the matching (empty) edge has the child offset 8, the length
of the blob, `walkTrie` answers `-1, "symbol not in trie"`. -/
theorem parseTrie_far_offset_eval :
    (∀ (F : ExportFlagOps) (L fuel : Nat) (blob p : List Byte) (c q : Nat)
      (nodes : List trieNode) (entries : List trieEntry),
      blob.length ≤ c → c < 2 ^ 63 →
        parseTrie.loop F L (fuel + 1) (⟨c, p⟩ :: nodes) entries ⟨blob, q⟩
          = some (.error (.returned .ulebEOF))) ∧
    ReadUleb128 ⟨farTrie, 4⟩ = (2 ^ 63, none, ⟨farTrie, 14⟩) ∧
    farTrie.length = 18 ∧
    toInt64 (2 ^ 63) = -(2 ^ 63) ∧
    parseTrie machOFlags farTrie 0 2 = some (.ok [⟨[0x61], 0, 0, 0x1000, []⟩]) ∧
    walkTrie edgeTrie [0x61] 2 = some (.ret (-1) (some .symbolNotInTrie)) := by
  refine ⟨?_, by decide, by decide, by decide, by decide, by decide⟩
  intro F L fuel blob p c q nodes entries h1 h2
  rw [parseTrie.loop]
  simp only []
  rw [seek_small blob q c h2, ReadUleb128_at_end blob c h1]

theorem parseTrie.terminal_s (F : ExportFlagOps) (L : Nat) (tNode : trieNode) (r r2 : Reader)
    (e : trieEntry) (h : parseTrie.terminal F L tNode r = .ok (e, r2)) : r2.s = r.s := by
  have key : ∀ (x y : Reader) (v : Nat) (err : Option TrieError),
      ReadUleb128 x = (v, err, y) → y.s = x.s := by
    intro x y v err hx
    have : (ReadUleb128 x).2.2.s = x.s := rfl
    rw [hx] at this
    exact this
  unfold parseTrie.terminal at h
  split at h
  · exact absurd h (by simp)
  · rename_i v0 r0 h0
    have k0 := key _ _ _ _ h0
    simp only [] at h
    split at h
    · exact absurd h (by simp)
    · rename_i o n ra ha
      have ka : ra.s = r0.s := by
        split at ha
        · split at ha
          · exact absurd ha (by simp)
          · rename_i vo ro ho
            have ko := key _ _ _ _ ho
            simp only [Except.ok.injEq, Prod.mk.injEq] at ha
            rw [← ha.2.2]
            exact ko
        · simp only [Except.ok.injEq, Prod.mk.injEq] at ha
          rw [← ha.2.2]
      split at h
      · exact absurd h (by simp)
      · rename_i vv rv hv
        have kv := key _ _ _ _ hv
        split at h
        · exact absurd h (by simp)
        · rename_i o2 rb hb
          have kb : rb.s = rv.s := by
            split at hb
            · split at hb
              · exact absurd hb (by simp)
              · rename_i vs rs hs
                have ks := key _ _ _ _ hs
                simp only [Except.ok.injEq, Prod.mk.injEq] at hb
                rw [← hb.2]
                exact ks
            · simp only [Except.ok.injEq, Prod.mk.injEq] at hb
              rw [← hb.2]
          simp only [Except.ok.injEq, Prod.mk.injEq] at h
          rw [← h.2, kb, kv, ka, k0]

/-- C15, as stated, fails. On `eofTrie` the decode meets the end of input at
the child count of the node `b` while the node `a` is still on the work list:
`parseTrie` returns the entry of `b` and no error, and the entry of `a` is
missing. On the three bytes `05 00 10` the jump target 6 lies past the end of
the blob, and `parseTrie` returns the entry of the root and no error. -/
theorem parseTrie_eof_counterexample :
    parseTrie.loop machOFlags 0 1 [⟨12, [0x62]⟩, ⟨8, [0x61]⟩] [] ⟨eofTrie, 8⟩
      = some (.ok [⟨[0x62], 0, 0, 0x20, []⟩]) ∧
    parseTrie machOFlags eofTrie 0 2 = some (.ok [⟨[0x62], 0, 0, 0x20, []⟩]) ∧
    parseTrie machOFlags [0x05, 0x00, 0x10] 0 1 = some (.ok [⟨[], 0, 0, 0x10, []⟩]) := by
  decide

/-- C15, amended (end of input at the child count): when `parseTrie` visits a
node whose terminal size `t` it could read and the jump target
`offset + t + 1` lies at or past the end of the blob, the read of the child
count meets the end of input and `parseTrie` returns at once, successfully,
with the entries emitted so far (and the entry of this node, if it is
terminal and its payload decodes), whatever nodes are left on the work list. -/
theorem parseTrie_eof_at_child_count (F : ExportFlagOps) (L fuel : Nat) (tNode : trieNode)
    (nodes : List trieNode) (entries : List trieEntry) (r r1 : Reader) (t : Nat)
    (h1 : ReadUleb128 (r.Seek (toInt64 tNode.Offset)) = (t, none, r1))
    (hj1 : (tNode.Offset + t + 1) % 2 ^ 64 < 2 ^ 63)
    (hj2 : r.s.length ≤ (tNode.Offset + t + 1) % 2 ^ 64) :
    parseTrie.loop F L (fuel + 1) (tNode :: nodes) entries r =
      if t = 0 then some (.ok entries)
      else
        match parseTrie.terminal F L tNode r1 with
        | .error err => some (.error (.returned err))
        | .ok (e, _) => some (.ok (entries ++ [e])) := by
  have hs1 : r1.s = r.s := by
    have h : (ReadUleb128 (r.Seek (toInt64 tNode.Offset))).2.2.s = (r.Seek (toInt64 tNode.Offset)).s :=
      rfl
    rw [h1] at h
    rw [h]
    unfold Reader.Seek
    split <;> rfl
  have hend : ∀ x : Reader, x.s = r.s →
      (x.Seek (toInt64 ((tNode.Offset + t + 1) % 2 ^ 64))).ReadByte.1 = none := by
    intro x hx
    obtain ⟨xs, xi⟩ := x
    simp only at hx
    subst hx
    rw [seek_small _ _ _ hj1, ReadByte_at_end _ _ hj2]
  rw [parseTrie.loop]
  simp only []
  rw [h1]
  simp only []
  by_cases ht : t = 0
  · simp only [ht, ne_eq, not_true_eq_false, if_false, if_true]
    have := hend r1 hs1
    rw [ht] at this
    generalize (r1.Seek (toInt64 ((tNode.Offset + 0 + 1) % 2 ^ 64))).ReadByte = rb at this
    obtain ⟨b, rr⟩ := rb
    simp only at this
    subst this
    rfl
  · simp only [ht, ne_eq, not_false_eq_true, if_true, if_false]
    cases hterm : parseTrie.terminal F L tNode r1 with
    | error err => rfl
    | ok er =>
      obtain ⟨e, r2⟩ := er
      have hs2 := parseTrie.terminal_s F L tNode r1 r2 e hterm
      have := hend r2 (hs2.trans hs1)
      simp only []
      generalize (r2.Seek (toInt64 ((tNode.Offset + t + 1) % 2 ^ 64))).ReadByte = rb at this
      obtain ⟨b, rr⟩ := rb
      simp only at this
      subst this
      rfl

/-- Witness for the amended C15 on `eofTrie`: visiting the node `b` (offset 12,
terminal size 2, jump target 15, the length of the blob) with the node `a`
still on the work list returns the entry of `b`. -/
theorem parseTrie_eof_at_child_count_witness :
    ReadUleb128 ((⟨eofTrie, 8⟩ : Reader).Seek (toInt64 12)) = (2, none, ⟨eofTrie, 13⟩) ∧
    eofTrie.length ≤ (12 + 2 + 1) % 2 ^ 64 ∧
    parseTrie.loop machOFlags 0 1 [⟨12, [0x62]⟩, ⟨8, [0x61]⟩] [] ⟨eofTrie, 8⟩
      = some (.ok [⟨[0x62], 0, 0, 0x20, []⟩]) :=
  ⟨by decide, by decide, by
    rw [parseTrie_eof_at_child_count machOFlags 0 0 ⟨12, [0x62]⟩ [⟨8, [0x61]⟩] []
      ⟨eofTrie, 8⟩ ⟨eofTrie, 13⟩ 2 (by decide) (by decide) (by decide)]
    decide⟩

/-! ## Further claims on `walkTrie` -/

theorem longSym_get (s : Nat) (h : s < 256) : longSym[s]? = some 0x61 := by
  rw [longSym, List.getElem?_replicate, if_pos h]

theorem spinTrie_siblings (s : Nat) (h : s < 256) :
    walkTrie.siblings spinTrie longSym s 0x61 7 = .next 10 5 ((s + 1) % 256) := by
  have hsl : sliceFrom spinTrie 7 = some [0x61, 0, 5, 0, 0, 0] := by decide
  have hsl2 : sliceFrom spinTrie 9 = some [5, 0, 0, 0] := by decide
  have hru : readUleb128 [5, 0, 0, 0] = (5, 1, none) := by decide
  have hne : ¬ s = (s + 1) % 256 := by omega
  rw [show (0x61 : Nat) = 96 + 1 from rfl, walkTrie.siblings]
  simp only [hsl]
  rw [if_neg (by decide)]
  rw [walkTrie.scanEdge, if_neg (by decide)]
  simp only [Bool.not_false, if_true, longSym_get s h]
  rw [walkTrie.scanEdge, if_pos rfl]
  simp only [ne_eq, not_true_eq_false, decide_False, Bool.false_eq_true, if_false]
  rw [show (7 : Int) + 1 + 1 = 9 from rfl, hsl2]
  simp only [hru]
  rw [if_neg (by decide), if_neg hne]
  rfl

theorem spinTrie_step (fuel s : Nat) (h : s < 256) :
    walkTrie.loop spinTrie longSym (fuel + 1) 5 s
      = walkTrie.loop spinTrie longSym fuel 5 ((s + 1) % 256) := by
  have h1 : readAt8 spinTrie 5 = some [0, 1, 0x61, 0, 5, 0, 0, 0] := by decide
  have h2 : 127 < leUint64 [0, 1, 0x61, 0, 5, 0, 0, 0] := by decide
  have h3 : readUleb128 (spinTrie.drop ((5 : Int) + 1 - 1).toNat) = (0, 1, none) := by decide
  have h4 : spinTrie[(toUint64 (5 + 1 - 1 + ((1 : Nat) : Int)) + 0) % 2 ^ 64]? = some 1 := by
    decide
  have h5 : spinTrie[(toUint64 (5 + 1 - 1 + ((1 : Nat) : Int)) + 0 + 1) % 2 ^ 64]? = some 0x61 := by
    decide
  have h6 : toInt64 ((toUint64 (5 + 1 - 1 + ((1 : Nat) : Int)) + 0 + 1) % 2 ^ 64) = 7 := by
    decide
  have h7 : toInt64 5 = 5 := by decide
  rw [walkTrie.loop]
  simp only [h1]
  rw [if_pos h2]
  simp only [h3]
  rw [if_neg (fun hh => hh.2 rfl)]
  simp only [h4]
  rw [if_neg (by decide)]
  simp only [h5, h6]
  rw [show ((0x61 : Byte) : Nat) = 0x61 from rfl, spinTrie_siblings s h]
  simp only []
  rw [if_pos (by decide), h7]

theorem spinTrie_first (fuel : Nat) :
    walkTrie.loop spinTrie longSym (fuel + 1) 0 0 = walkTrie.loop spinTrie longSym fuel 5 1 := by
  have h1 : readAt8 spinTrie 0 = some [0, 1, 0x61, 0, 5, 0, 1, 0x61] := by decide
  have h2 : 127 < leUint64 [0, 1, 0x61, 0, 5, 0, 1, 0x61] := by decide
  have h3 : readUleb128 (spinTrie.drop ((0 : Int) + 1 - 1).toNat) = (0, 1, none) := by decide
  have h4 : spinTrie[(toUint64 (0 + 1 - 1 + ((1 : Nat) : Int)) + 0) % 2 ^ 64]? = some 1 := by
    decide
  have h5 : spinTrie[(toUint64 (0 + 1 - 1 + ((1 : Nat) : Int)) + 0 + 1) % 2 ^ 64]? = some 0x61 := by
    decide
  have h6 : toInt64 ((toUint64 (0 + 1 - 1 + ((1 : Nat) : Int)) + 0 + 1) % 2 ^ 64) = 2 := by
    decide
  have h7 : toInt64 5 = 5 := by decide
  have hsl : sliceFrom spinTrie 2 = some [0x61, 0, 5, 0, 1, 0x61, 0, 5, 0, 0, 0] := by decide
  have hsl2 : sliceFrom spinTrie 4 = some [5, 0, 1, 0x61, 0, 5, 0, 0, 0] := by decide
  have hru : readUleb128 [5, 0, 1, 0x61, 0, 5, 0, 0, 0] = (5, 1, none) := by decide
  have hsib : walkTrie.siblings spinTrie longSym 0 0x61 2 = .next 5 5 1 := by
    rw [show (0x61 : Nat) = 96 + 1 from rfl, walkTrie.siblings]
    simp only [hsl]
    rw [if_neg (by decide)]
    rw [walkTrie.scanEdge, if_neg (by decide)]
    simp only [Bool.not_false, if_true, longSym_get 0 (by norm_num)]
    rw [walkTrie.scanEdge, if_pos rfl]
    simp only [ne_eq, not_true_eq_false, decide_False, Bool.false_eq_true, if_false]
    rw [show (2 : Int) + 1 + 1 = 4 from rfl, hsl2]
    simp only [hru]
    rw [if_neg (by decide), if_neg (by decide)]
    rfl
  rw [walkTrie.loop]
  simp only [h1]
  rw [if_pos h2]
  simp only [h3]
  rw [if_neg (fun hh => hh.2 rfl)]
  simp only [h4]
  rw [if_neg (by decide)]
  simp only [h5, h6]
  rw [show ((0x61 : Byte) : Nat) = 0x61 from rfl, hsib]
  simp only []
  rw [if_pos (by decide), h7]

theorem spinTrie_run : ∀ (fuel s : Nat), s < 256 →
    walkTrie.loop spinTrie longSym fuel 5 s = none := by
  intro fuel
  induction fuel with
  | zero => intro s _; rfl
  | succ fuel ih =>
    intro s hs
    rw [spinTrie_step fuel s hs]
    exact ih _ (Nat.mod_lt _ (by norm_num))

/-- On `spinTrie` with the symbol of 256 letters `a`, `walkTrie` has not
returned after any number of iterations. -/
theorem spinTrie_diverges : ∀ fuel : Nat, walkTrie spinTrie longSym fuel = none := by
  intro fuel
  cases fuel with
  | zero => rfl
  | succ fuel =>
    rw [walkTrie, spinTrie_first]
    exact spinTrie_run fuel 1 (by norm_num)

/-- C11 (lookup bounds safety) evaluated: `walkTrie` panics on an index out of
range for the empty symbol on the three-symbol trie (`symbol[0]`), on
`shortTrie`, whose terminal size 127 points past the end of its 8 bytes
(`data[128]`), and on `cutTrie`, which ends behind the terminator of an edge
string that does not match (`data[8]`). -/
theorem walkTrie_panics_eval :
    walkTrie threeSymbolTrie [] 1 = some .panic ∧
    walkTrie shortTrie [0x61] 1 = some .panic ∧
    walkTrie cutTrie [0x78] 1 = some .panic := by
  decide

theorem ghostTrie_wf : WellFormed machOFlags ghostTrie none ghostKids :=
  ⟨by decide, by decide, by decide⟩

/-- C18 (lookup soundness) evaluated on `ghostTrie`, a well-formed trie whose
only symbol is `_a`: looking up the one-byte symbol `02` returns offset 7 and
no error. The sibling scan of the root runs `data[2] = 0x5f` times instead of
once, takes the bytes `02 00 06` of the node of `_a` for an edge `02` with
child offset 6, and finds that node terminal. -/
theorem walkTrie_ghost_eval :
    WellFormed machOFlags ghostTrie none ghostKids ∧
    parseTrie machOFlags ghostTrie 0 2 = some (.ok [⟨sym_a, 0, 0, 6, []⟩]) ∧
    walkTrie ghostTrie [0x02] 2 = some (.ret 7 none) ∧
    walkTrie ghostTrie sym_a 2 = some (.ret 7 none) :=
  ⟨ghostTrie_wf, by decide, by decide, by decide⟩

set_option maxRecDepth 1000000 in
/-- C19 (node layout) evaluated on `wideTrie`, whose root (offset `p = 0`) has
the terminal size `t = 128` in a varint of `n = 2` bytes, so that its child
count is the byte 1 at offset `p + n + t = 130`. `parseTrie` seeks to
`p + t + 1 = 129`, reads the last payload byte 0 as the child count and returns
the entry of the root alone. `walkTrie` reads `data[130]` into `children` but
takes its loop count from `data[131] = 0x61`, reads the edge at 131 and finds
the child `a` at payload offset 136. -/
theorem trie_layout_eval :
    ReadUleb128 ⟨wideTrie, 0⟩ = (128, none, ⟨wideTrie, 2⟩) ∧
    wideTrie[130]? = some 1 ∧
    Reader.ReadByte ((⟨wideTrie, 2⟩ : Reader).Seek (toInt64 ((0 + 128 + 1) % 2 ^ 64)))
      = (some 0, ⟨wideTrie, 130⟩) ∧
    (parseTrie machOFlags wideTrie 0 2).map (fun res => res.map (fun es => es.map (·.Address)))
      = some (.ok [0]) ∧
    wideTrie[131]? = some 0x61 ∧
    walkTrie wideTrie [0x61] 2 = some (.ret 136 none) ∧
    parseTrie.terminal machOFlags 0 ⟨135, [0x61]⟩ ⟨wideTrie, 136⟩
      = .ok (⟨[0x61], 0, 0, 0x1000, []⟩, ⟨wideTrie, 139⟩) := by
  decide


theorem scanEdge_bound (symbol : List Byte) (hlen : symbol.length ≤ 255) :
    ∀ (tail : List Byte) (off : Int) (s : Nat) (w : Bool) (off2 : Int) (s2 : Nat) (w2 : Bool),
      s ≤ symbol.length →
      walkTrie.scanEdge symbol tail off s w = some (off2, s2, w2) →
      s ≤ s2 ∧ s2 ≤ symbol.length := by
  intro tail
  induction tail with
  | nil =>
    intro off s w off2 s2 w2 _ h
    simp [walkTrie.scanEdge] at h
  | cons c rest ih =>
    intro off s w off2 s2 w2 hs h
    rw [walkTrie.scanEdge] at h
    split at h
    · simp only [Option.some.injEq, Prod.mk.injEq] at h
      omega
    · split at h
      · split at h
        · exact absurd h (by simp)
        · rename_i sc hsc
          have hlt : s < symbol.length := by
            by_contra hge
            rw [List.getElem?_eq_none (by omega)] at hsc
            exact absurd hsc (by simp)
          rw [Nat.mod_eq_of_lt (by omega)] at h
          have := ih _ _ _ _ _ _ (by omega) h
          omega
      · exact ih _ _ _ _ _ _ hs h

theorem siblings_bound (data symbol : List Byte) (hlen : symbol.length ≤ 255) (s : Nat)
    (hs : s ≤ symbol.length) :
    ∀ (i : Nat) (off o : Int) (n s2 : Nat),
      walkTrie.siblings data symbol s i off = .next o n s2 → n ≠ 0 →
      s < s2 ∧ s2 ≤ symbol.length := by
  intro i
  induction i with
  | zero =>
    intro off o n s2 h hn
    simp only [walkTrie.siblings, SiblingOutcome.next.injEq] at h
    exact absurd h.2.1.symm hn
  | succ i ih =>
    intro off o n s2 h hn
    rw [walkTrie.siblings] at h
    split at h
    · exact absurd h (by simp)
    · split at h
      · exact absurd h (by simp)
      · split at h
        · exact absurd h (by simp)
        · rename_i off1 ssi wrong hscan
          have hb := scanEdge_bound symbol hlen _ _ _ _ _ _ _ hs hscan
          split at h
          · try simp only [] at h
            split at h
            · exact absurd h (by simp)
            · split at h
              · exact absurd h (by simp)
              · exact ih _ _ _ _ h hn
          · try simp only [] at h
            split at h
            · exact absurd h (by simp)
            · split at h
              · exact absurd h (by simp)
              · try simp only [] at h
                split at h
                · exact absurd h (by simp)
                · split at h
                  · exact absurd h (by simp)
                  · simp only [SiblingOutcome.next.injEq] at h
                    omega

theorem walkTrie_loop_returns (data symbol : List Byte) (hlen : symbol.length ≤ 255) :
    ∀ (fuel : Nat) (off : Int) (s : Nat), s ≤ symbol.length → symbol.length - s < fuel →
      walkTrie.loop data symbol fuel off s ≠ none := by
  intro fuel
  induction fuel with
  | zero => intro off s _ h; omega
  | succ fuel ih =>
    intro off s hs hf
    rw [walkTrie.loop]
    split
    · simp
    · try simp only []
      split
      · simp
      · split
        · simp
        · split
          · simp
          · split
            · simp
            · split
              · simp
              · split
                · simp
                · rename_i o n s2 hsib
                  split
                  · rename_i hn
                    have hb := siblings_bound data symbol hlen s hs _ _ _ _ _ hsib hn
                    exact ih _ _ hb.2 (by omega)
                  · simp

/-- C16 (lookup termination). For a symbol of at most 255 bytes every iteration
of the outer loop that does not return matches at least one more byte of the
symbol, so `walkTrie` has returned (or panicked) within `len(symbol) + 1`
iterations, on every blob. For longer symbols this fails: the match index is a
`uint8`, so on `spinTrie`, whose node at offset 5 has the edge `a` leading back
to itself, with the symbol of 256 letters `a` the index goes from 255 back to 0
and never reaches the length of the symbol; whatever the number of iterations
allowed, `walkTrie` has not returned. -/
theorem walkTrie_spin_diverges :
    (∀ (data symbol : List Byte) (fuel : Nat), symbol.length ≤ 255 → symbol.length < fuel →
      walkTrie data symbol fuel ≠ none) ∧
    (longSym.length = 256 ∧ ∀ fuel : Nat, walkTrie spinTrie longSym fuel = none) :=
  ⟨fun data symbol fuel hlen hf =>
      walkTrie_loop_returns data symbol hlen fuel 0 0 (Nat.zero_le _) (by omega),
    by rw [longSym, List.length_replicate], spinTrie_diverges⟩

end Dyld
